import Mathlib

/-!
# BFInterpreter: the Brainfuck-to-C translator of `BFInterpreter.c`

A shallow embedding of `generate`, `options` and `main` of `BFInterpreter.c`,
followed by the properties of the translation.

Conventions of the embedding.

* A file is a list of bytes (`Byte = Fin 256`); the text written with `fprintf`
  and `printf` is a `String` (the source file is UTF-8, and so is a Lean string).
* A `FILE *` is an `Option`: `none` is the `NULL` that `fopen` returns on failure.
  Handing `NULL` to `fprintf`, `fgetc` or `fclose` is undefined behaviour,
  outcome `Res.undefined`.
* `char ch; ch = fgetc(infile)` converts an `int` to plain `char`. Whether plain
  `char` is signed is a property of the C platform, carried as the parameter
  `signedChar` (`true`: 8-bit two's complement, as with gcc and clang on x86;
  `false`: unsigned 8-bit).
* Loops run on fuel: `Res.outOfFuel` says that the loop was still running when
  the fuel ran out.
-/

namespace BFInterpreter

set_option maxRecDepth 100000

/-- One byte of a file. -/
abbrev Byte := Fin 256

/-- The macro `EOF` of `<stdio.h>`. -/
def EOF : Int := -1

/-- The code of a character constant such as `'>'`, as the `int` it is in C. -/
def chr (c : Char) : Int := (c.toNat : Int)

/-- The value of an `int` after it has been stored in a plain `char` and
promoted back to `int`: reduced to 8 bits, two's complement when `char` is
signed. -/
def toChar (signedChar : Bool) (v : Int) : Int :=
  if signedChar then (v + 128) % 256 - 128 else v % 256

/-- How a call ends. -/
inductive Res (α : Type) where
  /-- The call returned. -/
  | ok (a : α)
  /-- Undefined behaviour, such as a `NULL` stream handed to the C library. -/
  | undefined
  /-- The loop was still running when the fuel ran out. -/
  | outOfFuel
  deriving DecidableEq, Repr

/-- Sequencing of calls: the first call that does not return ends the run. -/
def Res.bind {α β : Type} (r : Res α) (f : α → Res β) : Res β :=
  match r with
  | .ok a => f a
  | .undefined => .undefined
  | .outOfFuel => .outOfFuel

/-- The global variables `outfile` and `infile`: for `outfile` the text written
so far, for `infile` the bytes not yet read; `none` is `NULL`. -/
structure Globals where
  outfile : Option String
  infile : Option (List Byte)
  deriving DecidableEq, Repr

/-- The call `fprintf(outfile, s)` for a format `s` without conversions. -/
def fprintf (g : Globals) (s : String) : Res Globals :=
  match g.outfile with
  | none => .undefined
  | some out => .ok { g with outfile := some (out ++ s) }

/-- The call `fgetc(infile)`: the next byte as a non-negative `int`, or `EOF` at
the end of the file (and again on every later call). -/
def fgetc (g : Globals) : Res (Int × Globals) :=
  match g.infile with
  | none => .undefined
  | some [] => .ok (EOF, g)
  | some (b :: rest) => .ok ((b.val : Int), { g with infile := some rest })

/-- The `switch(ch)` of `generate`. -/
def switchCh (ch : Int) (g : Globals) : Res Globals :=
  if ch = chr '>' then fprintf g "ptr++;\n"
  else if ch = chr '<' then fprintf g "ptr--;\n"
  else if ch = chr '+' then fprintf g "++*ptr;\n"
  else if ch = chr '-' then fprintf g "--*ptr;\n"
  else if ch = chr '[' then fprintf g "while(*ptr)\x7b\n"
  else if ch = chr ']' then fprintf g "\x7d\n"
  else if ch = chr ',' then fprintf g "*ptr = getchar();\n"
  else if ch = chr '.' then fprintf g "putchar(*ptr);\n"
  else .ok g

/-- The loop `while((ch = fgetc(infile)) != EOF) { switch(ch){...} }` of
`generate`, one unit of fuel for each evaluation of the loop condition. -/
def generateLoop (signedChar : Bool) : Nat → Globals → Res Globals
  | 0, _ => .outOfFuel
  | fuel + 1, g =>
    (fgetc g).bind fun (r, g1) =>
      let ch := toChar signedChar r
      if ch ≠ EOF then
        (switchCh ch g1).bind fun g2 => generateLoop signedChar fuel g2
      else
        .ok g1

/-- The function `generate`. -/
def generate (signedChar : Bool) (fuel : Nat) (g : Globals) : Res Globals :=
  (fprintf g "/* This C code was automatically generated from Brainfuck source code by the Brainfuck-to-C Interpreter\n").bind fun g =>
  (fprintf g "Axel Ekman © 2018 */\n").bind fun g =>
  (fprintf g "\n#include <stdio.h>\n#include <stdlib.h>\n\n").bind fun g =>
  (fprintf g "int main ()\x7b\n char a[30000], *ptr = a;\n").bind fun g =>
  (generateLoop signedChar fuel g).bind fun g =>
  fprintf g "return 0;\n\x7d"

/-- The streams as `main` has them after two successful calls of `fopen`: the
whole input still to read, nothing written yet. -/
def opened (input : List Byte) : Globals :=
  { outfile := some "", infile := some input }

/-- The text of the output file after a call, when the call returned. -/
def written (r : Res Globals) : Option String :=
  match r with
  | .ok g => g.outfile
  | _ => none

/-- The text that `generate` writes before it reads the input: the four
`fprintf` calls ahead of the loop. -/
def prologue : String :=
  "/* This C code was automatically generated from Brainfuck source code by the Brainfuck-to-C Interpreter\n"
    ++ "Axel Ekman © 2018 */\n"
    ++ "\n#include <stdio.h>\n#include <stdlib.h>\n\n"
    ++ "int main ()\x7b\n char a[30000], *ptr = a;\n"

/-- The text that `generate` writes after the loop. -/
def epilogue : String := "return 0;\n\x7d"

/-- The statement table as the specification gives it, on the bytes of the
input: one line of C for each of the eight symbols, nothing for any other
byte. -/
def statementOf (b : Byte) : String :=
  if b.val = Char.toNat '>' then "ptr++;\n"
  else if b.val = Char.toNat '<' then "ptr--;\n"
  else if b.val = Char.toNat '+' then "++*ptr;\n"
  else if b.val = Char.toNat '-' then "--*ptr;\n"
  else if b.val = Char.toNat '[' then "while(*ptr)\x7b\n"
  else if b.val = Char.toNat ']' then "\x7d\n"
  else if b.val = Char.toNat ',' then "*ptr = getchar();\n"
  else if b.val = Char.toNat '.' then "putchar(*ptr);\n"
  else ""

/-- The concatenation, in order, of the statements of a byte sequence. -/
def translation : List Byte → String
  | [] => ""
  | b :: rest => statementOf b ++ translation rest

/-- Membership in the eight-symbol alphabet `> < + - [ ] , .`. -/
def isSymbol (b : Byte) : Bool :=
  b.val = Char.toNat '>' || b.val = Char.toNat '<' || b.val = Char.toNat '+'
    || b.val = Char.toNat '-' || b.val = Char.toNat '[' || b.val = Char.toNat ']'
    || b.val = Char.toNat ',' || b.val = Char.toNat '.'

/-- The bytes that the loop of `generate` gets to see when `char` is signed:
those ahead of the first byte `0xFF`, which `ch` cannot tell from `EOF`. -/
def beforeFF : List Byte → List Byte
  | [] => []
  | b :: rest => if b.val = 255 then [] else b :: beforeFF rest

/-- What is left of the input stream when the loop stops (signed `char`): the
bytes after the first `0xFF`. -/
def afterFF : List Byte → List Byte
  | [] => []
  | b :: rest => if b.val = 255 then rest else afterFF rest

/-! ## `main` and `options` -/

/-- One delivery of `getopt(argc, argv, "i:o:h")`: option `-i` or `-o` with its
argument, option `-h`, or the `'?'` that `getopt` returns for an option not in
the option string or an option whose argument is missing. -/
inductive Delivery where
  | optI (arg : String)
  | optO (arg : String)
  | optH
  | invalid
  deriving DecidableEq, Repr

/-- The value `getopt` returns for a delivery. -/
def Delivery.code : Delivery → Int
  | .optI _ => chr 'i'
  | .optO _ => chr 'o'
  | .optH => chr 'h'
  | .invalid => chr '?'

/-- The calls of `main` that the properties speak about, in the order made.
`fopen` records the path, the mode and whether a stream came back. -/
inductive Call where
  | options
  | fopen (path : String) (mode : String) (success : Bool)
  | generate
  | fclose
  deriving DecidableEq, Repr

/-- The state of the process while `main` runs: the local variables of `main`
(a name that is `none` is not initialised), what `getopt` has still to deliver
and its `optarg`, the text printed on standard output, the calls made. -/
structure Proc where
  bf_input_name : Option String
  c_output_name : Option String
  input_was_specified : Nat
  output_was_specified : Nat
  pending : List Delivery
  optarg : Option String
  stdout : String
  calls : List Call
  deriving DecidableEq, Repr

/-- Where control is after a piece of `main`: at the next statement, or the
process has ended through `exit`, or the fuel ran out. -/
inductive Ctl where
  | next
  | exit (status : Int)
  | outOfFuel
  deriving DecidableEq, Repr

/-- The file system as `fopen` sees it: `openRead path` is the byte sequence that
reading a stream opened on `path` with mode `"r"` delivers (`none`: the file
cannot be opened), `canWrite path` says whether `fopen(path, "w")` succeeds. -/
structure World where
  openRead : String → Option (List Byte)
  canWrite : String → Bool

/-- The result of a run of `main`: the text on standard output, the calls made,
the text in the output stream when `generate` returned, and how the run ended
(`Res.ok status`: with that exit status). -/
structure Run where
  stdout : String
  calls : List Call
  outfile : Option String
  outcome : Res Int

/-- The call `printf(s)` for a format `s` without conversions. -/
def printf (p : Proc) (s : String) : Proc :=
  { p with stdout := p.stdout ++ s }

/-- Recording of a call. -/
def Proc.call (p : Proc) (c : Call) : Proc :=
  { p with calls := p.calls ++ [c] }

/-- The call `getopt(argc, argv, "i:o:h")`: the code of the next delivery, with
`optarg` set for `-i` and `-o`; `-1` when all options have been delivered. -/
def getopt (p : Proc) : Int × Proc :=
  match p.pending with
  | [] => (-1, p)
  | .optI arg :: rest => (Delivery.code (.optI arg), { p with pending := rest, optarg := some arg })
  | .optO arg :: rest => (Delivery.code (.optO arg), { p with pending := rest, optarg := some arg })
  | d :: rest => (Delivery.code d, { p with pending := rest })

/-- The function `options`. -/
def options (p : Proc) : Proc :=
  let p := printf p "Interpreter specifications can be made with the following options:\n"
  let p := printf p "\t-i <infile>\tspecifies the infile name\n"
  let p := printf p "\t\t\t(by default \x27brainfuck.in\x27)\n"
  let p := printf p "\t-o <outfile>\tspecifies the outfile name\n"
  let p := printf p "\t\t\t(by default \x27brainfuck.out.c\x27)\n"
  printf p "\t-h\t\tshows a list of available input parameters\n"

/-- The loop `while((c = getopt(argc, argv, "i:o:h")) != -1) { switch(c){...} }`
of `main`, with `char c`; one unit of fuel for each evaluation of the loop
condition. -/
def optionLoop (signedChar : Bool) : Nat → Proc → Proc × Ctl
  | 0, p => (p, .outOfFuel)
  | fuel + 1, p =>
    let (r, p) := getopt p
    let c := toChar signedChar r
    if c ≠ -1 then
      if c = chr 'i' then
        optionLoop signedChar fuel
          { p with bf_input_name := p.optarg, input_was_specified := p.input_was_specified + 1 }
      else if c = chr 'o' then
        optionLoop signedChar fuel
          { p with c_output_name := p.optarg, output_was_specified := p.output_was_specified + 1 }
      else if c = chr 'h' then
        optionLoop signedChar fuel (options (p.call .options))
      else
        (printf p "Invalid arguments!\n", .exit 1)
    else
      (p, .next)

/-- The run that ends where it stands. -/
def Proc.ended (p : Proc) (outfile : Option String) (outcome : Res Int) : Run :=
  { stdout := p.stdout, calls := p.calls, outfile := outfile, outcome := outcome }

/-- The function `main`, from the first `fopen` on. -/
def mainTranslate (signedChar : Bool) (fuel : Nat) (world : World) (p : Proc) : Run :=
  match p.bf_input_name, p.c_output_name with
  | some bf_input_name, some c_output_name =>
    let infile := world.openRead bf_input_name
    let p := p.call (.fopen bf_input_name "r" infile.isSome)
    let outfile := if world.canWrite c_output_name then some "" else none
    let p := p.call (.fopen c_output_name "w" outfile.isSome)
    let p := p.call .generate
    match generate signedChar fuel { outfile := outfile, infile := infile } with
    | .ok g =>
      match g.infile, g.outfile with
      | some _, some out => ((p.call .fclose).call .fclose).ended (some out) (.ok 0)
      | _, _ => p.ended none .undefined
    | .undefined => p.ended none .undefined
    | .outOfFuel => p.ended none .outOfFuel
  | _, _ => p.ended none .undefined

/-- The function `main`. Of the command line it takes `argc` and what `getopt`
delivers for `argv`. -/
def main (signedChar : Bool) (fuel : Nat) (argc : Int) (deliveries : List Delivery)
    (world : World) : Run :=
  let p : Proc :=
    { bf_input_name := none, c_output_name := none, input_was_specified := 0,
      output_was_specified := 0, pending := deliveries, optarg := none, stdout := "",
      calls := [] }
  let (p, ctl) :=
    if argc < 2 then
      (printf p "The default values have been chosen. Call the program with -h for help.\n\n",
        Ctl.next)
    else
      optionLoop signedChar fuel p
  match ctl with
  | .next =>
    let p := if p.input_was_specified = 0 then { p with bf_input_name := some "brainfuck.in" } else p
    let p :=
      if p.output_was_specified = 0 then { p with c_output_name := some "brainfuck.out.c" } else p
    mainTranslate signedChar fuel world p
  | .exit status => p.ended none (.ok status)
  | .outOfFuel => p.ended none .outOfFuel

/-- The paths and modes of the `fopen` calls among the calls of a run. -/
def fopenCalls : List Call → List (String × String)
  | [] => []
  | .fopen path mode _ :: rest => (path, mode) :: fopenCalls rest
  | _ :: rest => fopenCalls rest

/-- The argument of the last `-i` delivered, if there is one. -/
def inputArg : List Delivery → Option String
  | [] => none
  | .optI arg :: rest => some ((inputArg rest).getD arg)
  | _ :: rest => inputArg rest

/-- The argument of the last `-o` delivered, if there is one. -/
def outputArg : List Delivery → Option String
  | [] => none
  | .optO arg :: rest => some ((outputArg rest).getD arg)
  | _ :: rest => outputArg rest

/-- The six lines that `options` prints. -/
def usageText : String :=
  "Interpreter specifications can be made with the following options:\n"
    ++ "\t-i <infile>\tspecifies the infile name\n"
    ++ "\t\t\t(by default \x27brainfuck.in\x27)\n"
    ++ "\t-o <outfile>\tspecifies the outfile name\n"
    ++ "\t\t\t(by default \x27brainfuck.out.c\x27)\n"
    ++ "\t-h\t\tshows a list of available input parameters\n"

/-- A text `n` times in a row. -/
def repeatText : Nat → String → String
  | 0, _ => ""
  | n + 1, s => s ++ repeatText n s

/-- A file system in which every file opens and every input file is empty. -/
def emptyFiles : World :=
  { openRead := fun _ => some [], canWrite := fun _ => true }

/-- A file system in which no file can be opened for reading. -/
def noInputFile : World :=
  { openRead := fun _ => none, canWrite := fun _ => true }

/-! ## The generated program

The statements that `generate` emits, read back from the output text, and their
meaning as C on the array `a` and the pointer `ptr` that the prologue declares
(the effects that the header of `BFInterpreter.c` lists under BRAINFUCK RECAP).
A cell is a byte, `++` and `--` wrap modulo 256; `ptr` is kept as the offset
`ptr - a`. -/

/-- One emitted line. -/
inductive Line where
  | ptrInc
  | ptrDec
  | cellInc
  | cellDec
  | whileOpen
  | close
  | getchar
  | putchar
  deriving DecidableEq, Repr

/-- The statements of the generated `main` between the declarations and
`return 0;`, as a tree: `loop body` is `while(*ptr){ body }`. -/
inductive CStmt where
  | skip
  | seq (first second : CStmt)
  | ptrInc
  | ptrDec
  | cellInc
  | cellDec
  | getchar
  | putchar
  | loop (body : CStmt)
  deriving DecidableEq, Repr

/-- Reading of one line (without its line feed) as an emitted statement. -/
def parseLine (l : List Char) : Option Line :=
  if l = "ptr++;".data then some .ptrInc
  else if l = "ptr--;".data then some .ptrDec
  else if l = "++*ptr;".data then some .cellInc
  else if l = "--*ptr;".data then some .cellDec
  else if l = "while(*ptr)\x7b".data then some .whileOpen
  else if l = "\x7d".data then some .close
  else if l = "*ptr = getchar();".data then some .getchar
  else if l = "putchar(*ptr);".data then some .putchar
  else none

/-- The lines of a text in which every line ends in a line feed; `cur` holds the
characters of the current line, latest first. -/
def linesOf : List Char → List Char → Option (List (List Char))
  | [], [] => some []
  | [], _ :: _ => none
  | c :: rest, cur =>
    if c = Char.ofNat 10 then (linesOf rest []).map fun ls => cur.reverse :: ls
    else linesOf rest (c :: cur)

/-- The tree of a sequence of lines: `stack` holds the statements ahead of each
open `while`, `cur` the statements of the innermost open block. A brace that
does not match leaves no program. -/
def build : List Line → List CStmt → CStmt → Option CStmt
  | [], [], cur => some cur
  | [], _ :: _, _ => none
  | .whileOpen :: ls, stack, cur => build ls (cur :: stack) .skip
  | .close :: _, [], _ => none
  | .close :: ls, outer :: stack, cur => build ls stack (.seq outer (.loop cur))
  | .ptrInc :: ls, stack, cur => build ls stack (.seq cur .ptrInc)
  | .ptrDec :: ls, stack, cur => build ls stack (.seq cur .ptrDec)
  | .cellInc :: ls, stack, cur => build ls stack (.seq cur .cellInc)
  | .cellDec :: ls, stack, cur => build ls stack (.seq cur .cellDec)
  | .getchar :: ls, stack, cur => build ls stack (.seq cur .getchar)
  | .putchar :: ls, stack, cur => build ls stack (.seq cur .putchar)

/-- Reading of every line of a list. -/
def parseLines : List (List Char) → Option (List Line)
  | [] => some []
  | l :: ls => (parseLine l).bind fun x => (parseLines ls).map fun xs => x :: xs

/-- The statements of a text of emitted lines. -/
def statementsOf (body : String) : Option CStmt :=
  (linesOf body.data []).bind fun ls => (parseLines ls).bind fun lines => build lines [] .skip

/-- Removal of `start` from the front of a text. -/
def stripStart : List Char → List Char → Option (List Char)
  | [], text => some text
  | _ :: _, [] => none
  | p :: ps, c :: cs => if p = c then stripStart ps cs else none

/-- The statements of a whole output of `generate`: of the text between the
prologue and the epilogue. -/
def programOf (text : String) : Option CStmt :=
  (stripStart prologue.data text.data).bind fun t =>
    (stripStart epilogue.data.reverse t.reverse).bind fun b => statementsOf ⟨b.reverse⟩

/-- The number of cells of `char a[30000]`. -/
def tapeLength : Nat := 30000

/-- The state of the generated program: the array `a`, the offset `ptr - a`, the
bytes of standard input not yet read, the bytes written to standard output. -/
structure Machine where
  a : Nat → Byte
  ptr : Nat
  stdin : List Byte
  stdout : List Byte

/-- The byte that a value is reduced to when stored in a cell. -/
def wrap (n : Nat) : Byte := ⟨n % 256, Nat.mod_lt n (by decide)⟩

/-- The call `getchar()`, stored in a cell: the next byte of standard input, or
`EOF` reduced to a byte at its end. -/
def getcharByte (m : Machine) : Byte × Machine :=
  match m.stdin with
  | [] => (wrap 255, m)
  | b :: rest => (b, { m with stdin := rest })

/-- Execution of a statement. Moving `ptr` below `a` or beyond `a + 30000`, and
access through `ptr` outside `a`, are undefined. A unit of fuel is used for each
level of statement nesting and for each turn of a loop. -/
def exec : Nat → CStmt → Machine → Res Machine
  | 0, _, _ => .outOfFuel
  | _ + 1, .skip, m => .ok m
  | fuel + 1, .seq s t, m => (exec fuel s m).bind fun m1 => exec fuel t m1
  | _ + 1, .ptrInc, m =>
    if m.ptr < tapeLength then .ok { m with ptr := m.ptr + 1 } else .undefined
  | _ + 1, .ptrDec, m =>
    if 0 < m.ptr then .ok { m with ptr := m.ptr - 1 } else .undefined
  | _ + 1, .cellInc, m =>
    if m.ptr < tapeLength then
      .ok { m with a := Function.update m.a m.ptr (wrap ((m.a m.ptr).val + 1)) }
    else .undefined
  | _ + 1, .cellDec, m =>
    if m.ptr < tapeLength then
      .ok { m with a := Function.update m.a m.ptr (wrap ((m.a m.ptr).val + 255)) }
    else .undefined
  | _ + 1, .getchar, m =>
    if m.ptr < tapeLength then
      let (b, m1) := getcharByte m
      .ok { m1 with a := Function.update m1.a m1.ptr b }
    else .undefined
  | _ + 1, .putchar, m =>
    if m.ptr < tapeLength then .ok { m with stdout := m.stdout ++ [m.a m.ptr] } else .undefined
  | fuel + 1, .loop body, m =>
    if m.ptr < tapeLength then
      if (m.a m.ptr).val ≠ 0 then (exec fuel body m).bind fun m1 => exec fuel (.loop body) m1
      else .ok m
    else .undefined

/-! ## Reading the output back: symbols and braces -/

/-- The symbol that an emitted line stands for. -/
def Line.symbol : Line → Byte
  | .ptrInc => ⟨Char.toNat '>', by decide⟩
  | .ptrDec => ⟨Char.toNat '<', by decide⟩
  | .cellInc => ⟨Char.toNat '+', by decide⟩
  | .cellDec => ⟨Char.toNat '-', by decide⟩
  | .whileOpen => ⟨Char.toNat '[', by decide⟩
  | .close => ⟨Char.toNat ']', by decide⟩
  | .getchar => ⟨Char.toNat ',', by decide⟩
  | .putchar => ⟨Char.toNat '.', by decide⟩

/-- The line that the `switch` of `generate` emits for a byte, if it emits
one. -/
def lineOf (b : Byte) : Option Line :=
  if b.val = Char.toNat '>' then some .ptrInc
  else if b.val = Char.toNat '<' then some .ptrDec
  else if b.val = Char.toNat '+' then some .cellInc
  else if b.val = Char.toNat '-' then some .cellDec
  else if b.val = Char.toNat '[' then some .whileOpen
  else if b.val = Char.toNat ']' then some .close
  else if b.val = Char.toNat ',' then some .getchar
  else if b.val = Char.toNat '.' then some .putchar
  else none

/-- The lines emitted for a sequence of bytes that are all read. -/
def tokens (input : List Byte) : List Line := input.filterMap lineOf

/-- Decoding of an output of `generate`: the symbols of the statement lines
between the prologue and the epilogue. -/
def decode (text : String) : Option (List Byte) :=
  (stripStart prologue.data text.data).bind fun t =>
    (stripStart epilogue.data.reverse t.reverse).bind fun b =>
      (linesOf b.reverse []).bind fun ls =>
        (parseLines ls).map fun lines => lines.map Line.symbol

/-- The curly braces of a text in order: `true` for an opening brace, `false`
for a closing one. -/
def bracesOf (text : String) : List Bool :=
  text.data.filterMap fun c =>
    if c = Char.ofNat 123 then some true else if c = Char.ofNat 125 then some false else none

/-- The loop delimiters of an input in order: `true` for `[`, `false` for `]`. -/
def bracketsOf (input : List Byte) : List Bool :=
  input.filterMap fun b =>
    if b.val = Char.toNat '[' then some true
    else if b.val = Char.toNat ']' then some false
    else none

/-- Well-nestedness of a sequence of delimiters that is read at depth `depth`: no
closing delimiter without an open one, none left open at the end. -/
def nestedFrom : Nat → List Bool → Bool
  | depth, [] => depth == 0
  | depth, true :: rest => nestedFrom (depth + 1) rest
  | 0, false :: _ => false
  | depth + 1, false :: rest => nestedFrom depth rest

/-- Well-nestedness of a sequence of delimiters. -/
def wellNested (l : List Bool) : Bool := nestedFrom 0 l

/-- After a first opening delimiter, with `depth` more open: the rest is well
nested and its last delimiter is the one that closes the first. -/
def outerFrom : Nat → List Bool → Bool
  | _, [] => false
  | depth, true :: rest => outerFrom (depth + 1) rest
  | 0, [false] => true
  | 0, false :: _ :: _ => false
  | depth + 1, false :: rest => outerFrom depth rest

/-- Well-nestedness of a sequence of delimiters in which the last delimiter
closes the first. -/
def closedByLast : List Bool → Bool
  | true :: rest => outerFrom 0 rest
  | _ => false

/-! ## Brainfuck

The meaning of a Brainfuck source text as the header of `BFInterpreter.c`
describes the eight operators (BRAINFUCK RECAP), run on the source text itself:
`[` is a `while` loop on the current block up to its `]`, every byte that is not
an operator is a comment. The memory is the array of 30 000 blocks of the header,
with the bounds of `Machine`; `,` and `.` are `getchar` and `putchar`. -/

/-- The text up to the `]` that closes a loop with `depth` more loops open inside
it, and the text after that `]`. -/
def matchClose : Nat → List Byte → Option (List Byte × List Byte)
  | _, [] => none
  | depth, b :: rest =>
    if b.val = Char.toNat ']' then
      match depth with
      | 0 => some ([], rest)
      | d + 1 => (matchClose d rest).map fun (body, after) => (b :: body, after)
    else if b.val = Char.toNat '[' then
      (matchClose (depth + 1) rest).map fun (body, after) => (b :: body, after)
    else
      (matchClose depth rest).map fun (body, after) => (b :: body, after)

/-- The effect of one byte of a source text other than a loop delimiter: of the
operators `>`, `<`, `+`, `-`, `,` and `.`; any other byte is a comment. -/
def bfOp (b : Byte) (m : Machine) : Res Machine :=
  if b.val = Char.toNat '>' then
    if m.ptr < tapeLength then .ok { m with ptr := m.ptr + 1 } else .undefined
  else if b.val = Char.toNat '<' then
    if 0 < m.ptr then .ok { m with ptr := m.ptr - 1 } else .undefined
  else if b.val = Char.toNat '+' then
    if m.ptr < tapeLength then
      .ok { m with a := Function.update m.a m.ptr (wrap ((m.a m.ptr).val + 1)) }
    else .undefined
  else if b.val = Char.toNat '-' then
    if m.ptr < tapeLength then
      .ok { m with a := Function.update m.a m.ptr (wrap ((m.a m.ptr).val + 255)) }
    else .undefined
  else if b.val = Char.toNat ',' then
    if m.ptr < tapeLength then
      let (c, m1) := getcharByte m
      .ok { m1 with a := Function.update m1.a m1.ptr c }
    else .undefined
  else if b.val = Char.toNat '.' then
    if m.ptr < tapeLength then .ok { m with stdout := m.stdout ++ [m.a m.ptr] } else .undefined
  else .ok m

/-- A run of a Brainfuck source text. A `[` without its `]`, and a `]` outside
a loop, are undefined. A unit of fuel is used for each byte of the text and for
each turn of a loop. -/
def bfRun : Nat → List Byte → Machine → Res Machine
  | 0, _, _ => .outOfFuel
  | _ + 1, [], m => .ok m
  | fuel + 1, b :: rest, m =>
    if b.val = Char.toNat '[' then
      match matchClose 0 rest with
      | none => .undefined
      | some (body, after) =>
        if m.ptr < tapeLength then
          if (m.a m.ptr).val ≠ 0 then
            (bfRun fuel body m).bind fun m1 => bfRun fuel (b :: rest) m1
          else bfRun fuel after m
        else .undefined
    else if b.val = Char.toNat ']' then .undefined
    else (bfOp b m).bind fun m1 => bfRun fuel rest m1

/-- A run of a statement from one state to another. -/
def execTo (s : CStmt) (m m1 : Machine) : Prop := ∃ fuel, exec fuel s m = .ok m1

/-- A run of a Brainfuck source text from one state to another. -/
def bfRunTo (text : List Byte) (m m1 : Machine) : Prop := ∃ fuel, bfRun fuel text m = .ok m1

/-! ## Source texts with their loops paired -/

/-- The byte `[`. -/
def openByte : Byte := ⟨Char.toNat '[', by decide⟩

/-- The byte `]`. -/
def closeByte : Byte := ⟨Char.toNat ']', by decide⟩

/-- A source text in which every `[` has its `]`: nothing, a byte and what
follows, or a loop and what follows. -/
inductive Code where
  | done
  | byte (b : Byte) (rest : Code)
  | loop (body rest : Code)
  deriving DecidableEq, Repr

/-- The text of a paired source text. -/
def Code.text : Code → List Byte
  | .done => []
  | .byte b rest => b :: rest.text
  | .loop body rest => openByte :: (body.text ++ closeByte :: rest.text)

/-- No single byte of a paired source text is a loop delimiter. -/
def Code.proper : Code → Bool
  | .done => true
  | .byte b rest =>
    !(decide (b.val = Char.toNat '[')) && !(decide (b.val = Char.toNat ']')) && rest.proper
  | .loop body rest => body.proper && rest.proper

/-- The statement of an emitted line other than the two of a loop. -/
def Line.atom : Line → Option CStmt
  | .ptrInc => some .ptrInc
  | .ptrDec => some .ptrDec
  | .cellInc => some .cellInc
  | .cellDec => some .cellDec
  | .getchar => some .getchar
  | .putchar => some .putchar
  | .whileOpen => none
  | .close => none

/-- The statements `cur` followed by the statements of a paired source text, in
the shape in which `build` makes them. -/
def Code.stmt : CStmt → Code → CStmt
  | cur, .done => cur
  | cur, .byte b rest =>
    match (lineOf b).bind Line.atom with
    | some s => rest.stmt (.seq cur s)
    | none => rest.stmt cur
  | cur, .loop body rest => rest.stmt (.seq cur (.loop (body.stmt .skip)))

/-- A file system in which every input file opens and is empty, and no file can
be opened for writing. -/
def readOnly : World :=
  { openRead := fun _ => some [], canWrite := fun _ => false }

/-- The number of lines of a text: its line feeds. -/
def lineCount (s : String) : Nat := s.data.count (Char.ofNat 10)

/-! ## The loop of `generate` -/

theorem toChar_signed_byte (b : Byte) :
    toChar true (b.val : Int) = if b.val < 128 then (b.val : Int) else (b.val : Int) - 256 := by
  have hb := b.isLt
  simp only [toChar, if_true]
  split_ifs <;> omega

theorem toChar_signed_EOF : toChar true EOF = EOF := by decide

theorem toChar_signed_eq_EOF (b : Byte) : toChar true (b.val : Int) = EOF ↔ b.val = 255 := by
  have hb := b.isLt
  rw [toChar_signed_byte]
  unfold EOF
  constructor
  · intro h
    split_ifs at h
    omega
  · intro h
    rw [if_neg (by omega)]
    omega

theorem toChar_unsigned_ne_EOF (v : Int) : toChar false v ≠ EOF := by
  unfold toChar EOF
  simp only [Bool.false_eq_true, if_false]
  omega

theorem symbol_codes :
    Char.toNat '>' = 62 ∧ Char.toNat '<' = 60 ∧ Char.toNat '+' = 43 ∧ Char.toNat '-' = 45
      ∧ Char.toNat '[' = 91 ∧ Char.toNat ']' = 93 ∧ Char.toNat ',' = 44 ∧ Char.toNat '.' = 46 := by
  decide

/-- On an open output stream the `switch` writes the table's statement of the
byte (signed `char`, any byte but `0xFF`). -/
theorem switchCh_signed (b : Byte) (out : String) (inp : Option (List Byte)) :
    switchCh (toChar true (b.val : Int)) { outfile := some out, infile := inp }
      = .ok { outfile := some (out ++ statementOf b), infile := inp } := by
  have hlt := b.isLt
  obtain ⟨h1, h2, h3, h4, h5, h6, h7, h8⟩ := symbol_codes
  rw [toChar_signed_byte]
  unfold switchCh statementOf chr fprintf
  rw [h1, h2, h3, h4, h5, h6, h7, h8]
  have key : ∀ n : Nat, n < 128 →
      (((if b.val < 128 then (b.val : Int) else (b.val : Int) - 256) = ((n : Nat) : Int)) ↔ b.val = n) := by
    intro n hn
    constructor
    · intro h
      split_ifs at h <;> omega
    · intro h
      split_ifs <;> omega
  simp only [key 62 (by decide), key 60 (by decide), key 43 (by decide), key 45 (by decide),
    key 91 (by decide), key 93 (by decide), key 44 (by decide), key 46 (by decide)]
  split_ifs <;> first | rfl | simp

/-- The loop on open streams, signed `char`: it stops at the end of the input or
at the first byte `0xFF`, having appended the statements of the bytes before. -/
theorem generateLoop_signed (inp : List Byte) (out : String) (k : Nat) :
    generateLoop true (inp.length + 1 + k) { outfile := some out, infile := some inp }
      = .ok { outfile := some (out ++ translation (beforeFF inp)),
              infile := some (afterFF inp) } := by
  induction inp generalizing out with
  | nil =>
    rw [show ([] : List Byte).length + 1 + k = k + 1 by simp; omega]
    simp [generateLoop, fgetc, Res.bind, toChar_signed_EOF, translation, beforeFF, afterFF]
  | cons b rest ih =>
    rw [show (b :: rest).length + 1 + k = (rest.length + 1 + k) + 1 by simp; omega]
    by_cases hb : b.val = 255
    · have h := (toChar_signed_eq_EOF b).mpr hb
      simp only [generateLoop, fgetc, Res.bind, ne_eq, h, not_true_eq_false, if_false]
      simp only [beforeFF, afterFF, hb, if_true, translation, String.append_empty]
    · have h : toChar true (b.val : Int) ≠ EOF := fun e => hb ((toChar_signed_eq_EOF b).mp e)
      simp only [generateLoop, fgetc, Res.bind, ne_eq, h, not_false_eq_true, if_true,
        switchCh_signed, ih, beforeFF, afterFF, hb, if_false, translation, String.append_assoc]

/-- With unsigned `char` no value of `ch` equals `EOF`: on open streams the loop
is still running whatever the fuel. -/
theorem generateLoop_unsigned (fuel : Nat) (inp : List Byte) (out : String) :
    generateLoop false fuel { outfile := some out, infile := some inp } = .outOfFuel := by
  induction fuel generalizing inp out with
  | zero => rfl
  | succ n ih =>
    have hsw : ∀ (ch : Int) (o : String) (i : List Byte), ∃ o2,
        switchCh ch { outfile := some o, infile := some i }
          = .ok { outfile := some o2, infile := some i } := by
      intro ch o i
      unfold switchCh fprintf
      split_ifs <;> exact ⟨_, rfl⟩
    cases inp with
    | nil =>
      obtain ⟨o2, h2⟩ := hsw (toChar false EOF) out []
      simp only [generateLoop, fgetc, Res.bind, ne_eq, toChar_unsigned_ne_EOF,
        not_false_eq_true, if_true, h2, ih]
    | cons b rest =>
      obtain ⟨o2, h2⟩ := hsw (toChar false (b.val : Int)) out rest
      simp only [generateLoop, fgetc, Res.bind, ne_eq, toChar_unsigned_ne_EOF,
        not_false_eq_true, if_true, h2, ih]

theorem generate_signed (inp : List Byte) (k : Nat) :
    generate true (inp.length + 1 + k) (opened inp)
      = .ok { outfile := some (prologue ++ translation (beforeFF inp) ++ epilogue),
              infile := some (afterFF inp) } := by
  simp only [generate, opened, fprintf, Res.bind, generateLoop_signed]
  simp [prologue, epilogue, String.append_assoc]

theorem beforeFF_of_noFF (inp : List Byte) (h : ∀ b ∈ inp, b.val ≠ 255) : beforeFF inp = inp := by
  induction inp with
  | nil => rfl
  | cons b rest ih =>
    have hb : b.val ≠ 255 := h b (List.mem_cons_self _ _)
    simp only [beforeFF, hb, if_false]
    rw [ih (fun c hc => h c (List.mem_cons_of_mem _ hc))]

theorem beforeFF_subset (inp : List Byte) : ∀ b ∈ beforeFF inp, b ∈ inp := by
  induction inp with
  | nil => intro b hb; exact hb
  | cons a rest ih =>
    intro b hb
    unfold beforeFF at hb
    split_ifs at hb with h
    · cases hb
    · rcases List.mem_cons.mp hb with e | e
      · exact e ▸ List.mem_cons_self _ _
      · exact List.mem_cons_of_mem _ (ih b e)

theorem statementOf_of_not_symbol (b : Byte) (h : isSymbol b = false) : statementOf b = "" := by
  unfold isSymbol at h
  simp only [Bool.or_eq_false_iff, decide_eq_false_iff_not] at h
  obtain ⟨⟨⟨⟨⟨⟨⟨h1, h2⟩, h3⟩, h4⟩, h5⟩, h6⟩, h7⟩, h8⟩ := h
  simp only [statementOf, h1, h2, h3, h4, h5, h6, h7, h8, if_false]

theorem translation_of_no_symbol (l : List Byte) (h : ∀ b ∈ l, isSymbol b = false) :
    translation l = "" := by
  induction l with
  | nil => rfl
  | cons b rest ih =>
    simp only [translation, statementOf_of_not_symbol b (h b (List.mem_cons_self _ _)),
      ih (fun c hc => h c (List.mem_cons_of_mem _ hc)), String.append_empty]

theorem generate_signed_noFF (inp : List Byte) (h : ∀ b ∈ inp, b.val ≠ 255) (k : Nat) :
    written (generate true (inp.length + 1 + k) (opened inp))
      = some (prologue ++ translation inp ++ epilogue) := by
  rw [generate_signed, beforeFF_of_noFF inp h]
  rfl

theorem generate_unsigned (fuel : Nat) (input : List Byte) :
    generate false fuel (opened input) = .outOfFuel := by
  simp only [generate, opened, fprintf, Res.bind, generateLoop_unsigned]

/-! ## The translation: order, count, comments (C1 to C6) -/

theorem lineCount_append (s t : String) : lineCount (s ++ t) = lineCount s + lineCount t := by
  simp [lineCount, String.data_append, List.count_append]

theorem lineCount_statementOf (b : Byte) :
    lineCount (statementOf b) = if isSymbol b then 1 else 0 := by
  unfold statementOf isSymbol
  split_ifs <;> first | rfl | simp_all

/-- Without a byte `0xFF` in the input, the lines between prologue and epilogue
are as many as the symbols of the input. -/
theorem lineCount_translation (l : List Byte) :
    lineCount (translation l) = l.countP isSymbol := by
  induction l with
  | nil => rfl
  | cons b rest ih =>
    rw [translation, lineCount_append, lineCount_statementOf, ih, List.countP_cons]
    omega

/-- Bytes outside the alphabet contribute nothing to the concatenated
statements. -/
theorem translation_filter (l : List Byte) : translation (l.filter isSymbol) = translation l := by
  induction l with
  | nil => rfl
  | cons b rest ih =>
    by_cases hb : isSymbol b = true
    · rw [List.filter_cons_of_pos hb, translation, translation, ih]
    · rw [List.filter_cons_of_neg hb, translation, ih,
        statementOf_of_not_symbol b (by simpa using hb), String.empty_append]

/-- Without a byte `0xFF`, inputs with the same symbols in the same order have
the same output (signed `char`): bytes outside the alphabet other than `0xFF`
are comments. -/
theorem generate_signed_same_symbols (s t : List Byte) (hs : ∀ b ∈ s, b.val ≠ 255)
    (ht : ∀ b ∈ t, b.val ≠ 255) (h : s.filter isSymbol = t.filter isSymbol) (k j : Nat) :
    written (generate true (s.length + 1 + k) (opened s))
      = written (generate true (t.length + 1 + j) (opened t)) := by
  rw [generate_signed_noFF s hs, generate_signed_noFF t ht, ← translation_filter s, h,
    translation_filter t]

/-- C1, at the input `0xFF '+'` with signed `char`: `generate` returns with the
prologue directly followed by the epilogue, although the table gives the
statement `++*ptr;` for the byte `'+'`: the output is not the prologue, the
statements of the input's bytes in order, and the epilogue. -/
theorem generate_order_at_0xFF (k : Nat) :
    written (generate true (3 + k) (opened [255, 43])) = some (prologue ++ epilogue)
      ∧ translation [255, 43] = "++*ptr;\n"
      ∧ written (generate true (3 + k) (opened [255, 43]))
          ≠ some (prologue ++ translation [255, 43] ++ epilogue) := by
  have h : generate true (3 + k) (opened [255, 43]) = _ := generate_signed [255, 43] k
  rw [h]
  exact ⟨by decide, by decide, by decide⟩

/-- C2, at the input `0xFF '+'` with signed `char`: the input has one byte of the
alphabet, and `generate` writes no line between the prologue and the
epilogue. -/
theorem generate_count_at_0xFF (k : Nat) :
    written (generate true (3 + k) (opened [255, 43])) = some (prologue ++ "" ++ epilogue)
      ∧ lineCount "" = 0
      ∧ ([255, 43] : List Byte).countP isSymbol = 1 := by
  have h : generate true (3 + k) (opened [255, 43]) = _ := generate_signed [255, 43] k
  rw [h]
  exact ⟨by decide, by decide, by decide⟩

/-- C3, with signed `char`: the byte `0xFF` is not in the alphabet, and putting it
in front of the input `'+'` changes the output of `generate`: the statement of
`'+'` is gone. -/
theorem generate_insert_0xFF (k : Nat) :
    isSymbol (255 : Byte) = false
      ∧ written (generate true (3 + k) (opened [43]))
          = some (prologue ++ "++*ptr;\n" ++ epilogue)
      ∧ written (generate true (3 + k) (opened [255, 43])) = some (prologue ++ epilogue)
      ∧ written (generate true (3 + k) (opened [255, 43]))
          ≠ written (generate true (3 + k) (opened [43])) := by
  have h : generate true (3 + k) (opened [255, 43]) = _ := generate_signed [255, 43] k
  have h1 : generate true (3 + k) (opened [43])
      = .ok { outfile := some (prologue ++ translation (beforeFF [43]) ++ epilogue),
              infile := some (afterFF [43]) } := by
    have e : 3 + k = ([43] : List Byte).length + 1 + (k + 1) := by
      simp only [List.length_cons, List.length_nil]; omega
    rw [e]
    exact generate_signed [43] (k + 1)
  rw [h, h1]
  exact ⟨by decide, by decide, by decide, by decide⟩

/-- C4, with signed `char`: for an input without a byte of the alphabet, `generate`
returns with the prologue directly followed by the epilogue as its output; this
text has no statement in it, and neither `getchar` nor `putchar` occurs in it. -/
theorem generate_of_no_symbol (input : List Byte) (h : ∀ b ∈ input, isSymbol b = false)
    (k : Nat) :
    written (generate true (input.length + 1 + k) (opened input)) = some (prologue ++ epilogue)
      ∧ programOf (prologue ++ epilogue) = some CStmt.skip
      ∧ ¬ "getchar".data <:+: (prologue ++ epilogue).data
      ∧ ¬ "putchar".data <:+: (prologue ++ epilogue).data := by
  refine ⟨?_, by decide, by decide, by decide⟩
  rw [generate_signed,
    translation_of_no_symbol (beforeFF input) (fun b hb => h b (beforeFF_subset input b hb))]
  simp [written]

theorem generate_of_no_symbol_witness :
    (∀ b ∈ ([32, 255, 10] : List Byte), isSymbol b = false)
      ∧ written (generate true 4 (opened [32, 255, 10])) = some (prologue ++ epilogue) :=
  ⟨by decide, (generate_of_no_symbol [32, 255, 10] (by decide) 0).1⟩

/-- C5, with signed `char`: for every input the output of `generate` is the fixed
prologue (header comment, the two includes, `int main ()` and the declaration
of the array of 30000 cells with `ptr` at its first cell), some text, and the
fixed epilogue. -/
theorem generate_prologue_epilogue (input : List Byte) (k : Nat) :
    ∃ body, written (generate true (input.length + 1 + k) (opened input))
      = some ("/* This C code was automatically generated from Brainfuck source code by the Brainfuck-to-C Interpreter\nAxel Ekman © 2018 */\n\n#include <stdio.h>\n#include <stdlib.h>\n\nint main ()\x7b\n char a[30000], *ptr = a;\n"
          ++ body ++ "return 0;\n\x7d") := by
  rw [generate_signed]
  exact ⟨translation (beforeFF input), rfl⟩

/-- C6, with signed `char`: on every input `generate` returns, with fuel for one
turn of the loop for each byte and one more; its output is the prologue, the
statements of the bytes read, and the epilogue. So it is for the input `[`
alone. -/
theorem generate_total (input : List Byte) (k : Nat) :
    (∃ g, generate true (input.length + 1 + k) (opened input) = .ok g
        ∧ g.outfile = some (prologue ++ translation (beforeFF input) ++ epilogue))
      ∧ written (generate true (2 + k) (opened [91]))
          = some (prologue ++ "while(*ptr)\x7b\n" ++ epilogue) := by
  refine ⟨⟨_, generate_signed input k, rfl⟩, ?_⟩
  have h : generate true (2 + k) (opened [91]) = _ := generate_signed [91] k
  rw [h]
  decide

/-! ## The idiom `[-]` (C7) -/

theorem update_zero_of_val (m : Machine) (h : (m.a m.ptr).val = 0) :
    Function.update m.a m.ptr 0 = m.a := by
  have e : m.a m.ptr = 0 := Fin.ext h
  rw [← e]
  exact Function.update_eq_self _ _

/-- The loop `while(*ptr){ --*ptr; }` from a cell that holds `n`: it ends after
`n` turns with the cell at zero and nothing else changed. -/
theorem exec_zero_loop (n : Nat) (m : Machine) (hp : m.ptr < tapeLength)
    (hv : (m.a m.ptr).val = n) (j : Nat) :
    exec (n + 3 + j) (.loop (.seq .skip .cellDec)) m
      = .ok { m with a := Function.update m.a m.ptr 0 } := by
  induction n generalizing m with
  | zero =>
    rw [show 0 + 3 + j = (2 + j) + 1 by omega]
    simp only [exec, hp, if_true, hv, ne_eq, not_true_eq_false, if_false,
      update_zero_of_val m hv]
  | succ n ih =>
    have hlt := (m.a m.ptr).isLt
    have hw : (wrap ((m.a m.ptr).val + 255)).val = n := by
      simp only [wrap, hv]
      omega
    have hstep : exec (n + 3 + j) (.seq .skip .cellDec) m
        = .ok { m with a := Function.update m.a m.ptr (wrap ((m.a m.ptr).val + 255)) } := by
      rw [show n + 3 + j = ((n + 1 + j) + 1) + 1 by omega]
      simp only [exec, Res.bind, hp, if_true]
    have hne : (m.a m.ptr).val ≠ 0 := by omega
    rw [show n + 1 + 3 + j = (n + 3 + j) + 1 by omega]
    simp only [exec, hp, if_true, hne, ne_eq, not_false_eq_true, hstep, Res.bind]
    have h1 := ih { m with a := Function.update m.a m.ptr (wrap ((m.a m.ptr).val + 255)) } hp
      (by simpa using hw)
    rw [h1]
    simp

/-- C7, with signed `char`: for the input `[-]` the statements that `generate`
emits are `while(*ptr){`, `--*ptr;`, `}`, one loop around one decrement; run
from any state whose `ptr` is on a cell, they end (with fuel above the value of
the cell by three) with that cell at zero, every other cell, `ptr` and the
standard streams as before. -/
theorem zero_cell_idiom (k : Nat) (m : Machine) (hp : m.ptr < tapeLength) :
    written (generate true (4 + k) (opened [91, 45, 93]))
        = some (prologue ++ "while(*ptr)\x7b\n--*ptr;\n\x7d\n" ++ epilogue)
      ∧ programOf (prologue ++ "while(*ptr)\x7b\n--*ptr;\n\x7d\n" ++ epilogue)
        = some (.seq .skip (.loop (.seq .skip .cellDec)))
      ∧ ∃ m1, (∀ j, exec ((m.a m.ptr).val + 4 + j) (.seq .skip (.loop (.seq .skip .cellDec))) m
                = .ok m1)
          ∧ m1.a m.ptr = 0 ∧ (∀ i, i ≠ m.ptr → m1.a i = m.a i) ∧ m1.ptr = m.ptr
          ∧ m1.stdin = m.stdin ∧ m1.stdout = m.stdout := by
  have h : generate true (4 + k) (opened [91, 45, 93]) = _ := generate_signed [91, 45, 93] k
  refine ⟨by rw [h]; decide, by decide, ?_⟩
  refine ⟨{ m with a := Function.update m.a m.ptr 0 }, ?_, ?_, ?_, rfl, rfl, rfl⟩
  · intro j
    have hs : ∀ (f : Nat) (s : CStmt), exec (f + 2) (.seq .skip s) m = exec (f + 1) s m := by
      intro f s
      simp only [exec, Res.bind]
    rw [show (m.a m.ptr).val + 4 + j = ((m.a m.ptr).val + 2 + j) + 2 by omega, hs,
      show (m.a m.ptr).val + 2 + j + 1 = (m.a m.ptr).val + 3 + j by omega]
    exact exec_zero_loop _ m hp rfl j
  · simp
  · intro i hi
    simp [Function.update, hi]

theorem zero_cell_idiom_witness :
    (0 : Nat) < tapeLength
      ∧ ∃ m1, exec 204 (.seq .skip (.loop (.seq .skip .cellDec)))
            { a := fun _ => 200, ptr := 0, stdin := [], stdout := [] } = .ok m1
          ∧ m1.a 0 = 0 ∧ m1.a 1 = 200 := by
  refine ⟨by decide, ?_⟩
  obtain ⟨_, _, m1, hrun, h0, hrest, _⟩ :=
    zero_cell_idiom 0 { a := fun _ => 200, ptr := 0, stdin := [], stdout := [] } (by decide)
  exact ⟨m1, hrun 0, h0, hrest 1 (by decide)⟩

/-! ## The command line: `main` (C8 to C10) -/

/-- The text that one call of `options` prints. -/
theorem options_stdout (p : Proc) :
    (options p).stdout = p.stdout ++ ("Interpreter specifications can be made with the following options:\n"
      ++ "\t-i <infile>\tspecifies the infile name\n"
      ++ "\t\t\t(by default \x27brainfuck.in\x27)\n"
      ++ "\t-o <outfile>\tspecifies the outfile name\n"
      ++ "\t\t\t(by default \x27brainfuck.out.c\x27)\n"
      ++ "\t-h\t\tshows a list of available input parameters\n") := by
  simp only [options, printf, String.append_assoc]

theorem optionLoop_nil (p : Proc) (hp : p.pending = []) (f : Nat) :
    optionLoop true (f + 1) p = (p, .next) := by
  simp only [optionLoop, getopt, hp]
  rfl

theorem optionLoop_optI (p : Proc) (arg : String) (rest : List Delivery)
    (hp : p.pending = .optI arg :: rest) (f : Nat) :
    optionLoop true (f + 1) p = optionLoop true f
      { p with pending := rest, optarg := some arg, bf_input_name := some arg,
               input_was_specified := p.input_was_specified + 1 } := by
  simp only [optionLoop, getopt, hp]
  rfl

theorem optionLoop_optO (p : Proc) (arg : String) (rest : List Delivery)
    (hp : p.pending = .optO arg :: rest) (f : Nat) :
    optionLoop true (f + 1) p = optionLoop true f
      { p with pending := rest, optarg := some arg, c_output_name := some arg,
               output_was_specified := p.output_was_specified + 1 } := by
  simp only [optionLoop, getopt, hp]
  rfl

theorem optionLoop_optH (p : Proc) (rest : List Delivery)
    (hp : p.pending = .optH :: rest) (f : Nat) :
    optionLoop true (f + 1) p
      = optionLoop true f (options ({ p with pending := rest }.call .options)) := by
  simp only [optionLoop, getopt, hp]
  rfl

theorem optionLoop_invalid (p : Proc) (rest : List Delivery)
    (hp : p.pending = .invalid :: rest) (f : Nat) :
    optionLoop true (f + 1) p
      = (printf { p with pending := rest } "Invalid arguments!\n", .exit 1) := by
  simp only [optionLoop, getopt, hp]
  rfl

theorem optionLoop_valid (ds : List Delivery) (hv : Delivery.invalid ∉ ds) (k : Nat) (p : Proc)
    (hp : p.pending = ds) :
    ∃ q, optionLoop true (ds.length + 1 + k) p = (q, .next)
      ∧ q.calls = p.calls ++ List.replicate (ds.count .optH) .options
      ∧ q.stdout = p.stdout ++ repeatText (ds.count .optH) usageText
      ∧ q.bf_input_name = (match inputArg ds with | some a => some a | none => p.bf_input_name)
      ∧ q.c_output_name = (match outputArg ds with | some a => some a | none => p.c_output_name)
      ∧ (q.input_was_specified = 0 ↔ p.input_was_specified = 0 ∧ inputArg ds = none)
      ∧ (q.output_was_specified = 0 ↔ p.output_was_specified = 0 ∧ outputArg ds = none) := by
  induction ds generalizing p with
  | nil =>
    have h0 : ([] : List Delivery).length + 1 + k = k + 1 := by
      simp only [List.length_nil]; omega
    rw [h0]
    refine ⟨p, optionLoop_nil p hp k, ?_⟩
    simp [inputArg, outputArg, repeatText]
  | cons d rest ih =>
    have hv1 : Delivery.invalid ∉ rest := fun h => hv (List.mem_cons_of_mem _ h)
    have hfuel : (d :: rest).length + 1 + k = (rest.length + 1 + k) + 1 := by
      simp only [List.length_cons]; omega
    rw [hfuel]
    cases d with
    | optI arg =>
      rw [optionLoop_optI p arg rest hp]
      obtain ⟨q, hq, h1, h2, h3, h4, h5, h6⟩ := ih hv1
        { p with pending := rest, optarg := some arg, bf_input_name := some arg,
                 input_was_specified := p.input_was_specified + 1 } rfl
      refine ⟨q, hq, ?_, ?_, ?_, ?_, ?_, ?_⟩
      · simpa using h1
      · simpa using h2
      · rw [h3]; cases h : inputArg rest <;> simp [inputArg, h]
      · rw [h4]; simp [outputArg]
      · rw [h5]; simp [inputArg]
      · rw [h6]; simp [outputArg]
    | optO arg =>
      rw [optionLoop_optO p arg rest hp]
      obtain ⟨q, hq, h1, h2, h3, h4, h5, h6⟩ := ih hv1
        { p with pending := rest, optarg := some arg, c_output_name := some arg,
                 output_was_specified := p.output_was_specified + 1 } rfl
      refine ⟨q, hq, ?_, ?_, ?_, ?_, ?_, ?_⟩
      · simpa using h1
      · simpa using h2
      · rw [h3]; simp [inputArg]
      · rw [h4]; cases h : outputArg rest <;> simp [outputArg, h]
      · rw [h5]; simp [inputArg]
      · rw [h6]; simp [outputArg]
    | optH =>
      rw [optionLoop_optH p rest hp]
      obtain ⟨q, hq, h1, h2, h3, h4, h5, h6⟩ := ih hv1
        (options (Proc.call { p with pending := rest } Call.options)) rfl
      refine ⟨q, hq, ?_, ?_, ?_, ?_, ?_, ?_⟩
      · rw [h1]
        simp [options, printf, Proc.call, List.replicate_succ]
      · rw [h2, options_stdout]
        simp [Proc.call, repeatText, usageText, String.append_assoc]
      · rw [h3]; simp [inputArg, options, printf, Proc.call]
      · rw [h4]; simp [outputArg, options, printf, Proc.call]
      · rw [h5]; simp [inputArg, options, printf, Proc.call]
      · rw [h6]; simp [outputArg, options, printf, Proc.call]
    | invalid => exact absurd (List.mem_cons_self _ _) hv

theorem optionLoop_of_invalid (ds : List Delivery) (hv : Delivery.invalid ∈ ds) (k : Nat)
    (p : Proc) (hp : p.pending = ds) :
    ∃ q n t, optionLoop true (ds.length + 1 + k) p = (q, .exit 1)
      ∧ q.calls = p.calls ++ List.replicate n .options
      ∧ q.stdout = p.stdout ++ t ++ "Invalid arguments!\n" := by
  induction ds generalizing p with
  | nil => cases hv
  | cons d rest ih =>
    have hfuel : (d :: rest).length + 1 + k = (rest.length + 1 + k) + 1 := by
      simp only [List.length_cons]; omega
    rw [hfuel]
    cases d with
    | optI arg =>
      have hv1 : Delivery.invalid ∈ rest := by simpa using hv
      rw [optionLoop_optI p arg rest hp]
      exact ih hv1
        { p with pending := rest, optarg := some arg, bf_input_name := some arg,
                 input_was_specified := p.input_was_specified + 1 } rfl
    | optO arg =>
      have hv1 : Delivery.invalid ∈ rest := by simpa using hv
      rw [optionLoop_optO p arg rest hp]
      exact ih hv1
        { p with pending := rest, optarg := some arg, c_output_name := some arg,
                 output_was_specified := p.output_was_specified + 1 } rfl
    | optH =>
      have hv1 : Delivery.invalid ∈ rest := by simpa using hv
      rw [optionLoop_optH p rest hp]
      obtain ⟨q, n, t, hq, h1, h2⟩ := ih hv1
        (options (Proc.call { p with pending := rest } Call.options)) rfl
      refine ⟨q, n + 1, usageText ++ t, hq, ?_, ?_⟩
      · rw [h1]
        simp [options, printf, Proc.call, List.replicate_succ]
      · rw [h2, options_stdout]
        simp [Proc.call, usageText, String.append_assoc]
    | invalid =>
      rw [optionLoop_invalid p rest hp]
      exact ⟨_, 0, "", rfl, by simp [printf], by simp [printf]⟩

theorem mainTranslate_calls (signedChar : Bool) (fuel : Nat) (world : World) (p : Proc)
    (i o : String) (hi : p.bf_input_name = some i) (ho : p.c_output_name = some o) :
    ∃ tail, (mainTranslate signedChar fuel world p).calls
        = p.calls ++ [.fopen i "r" (world.openRead i).isSome, .fopen o "w" (world.canWrite o),
            .generate] ++ tail
      ∧ (tail = [] ∨ tail = [.fclose, .fclose])
      ∧ (mainTranslate signedChar fuel world p).stdout = p.stdout := by
  have hw : (if world.canWrite o = true then some "" else none : Option String).isSome
      = world.canWrite o := by
    cases world.canWrite o <;> rfl
  unfold mainTranslate
  simp only [hi, ho, hw]
  split
  · split
    · exact ⟨[.fclose, .fclose], by simp [Proc.ended, Proc.call], Or.inr rfl, rfl⟩
    · exact ⟨[], by simp [Proc.ended, Proc.call], Or.inl rfl, rfl⟩
  · exact ⟨[], by simp [Proc.ended, Proc.call], Or.inl rfl, rfl⟩
  · exact ⟨[], by simp [Proc.ended, Proc.call], Or.inl rfl, rfl⟩

theorem mainTranslate_ok (fuel : Nat) (world : World) (p : Proc) (i o : String)
    (content : List Byte) (hi : p.bf_input_name = some i) (ho : p.c_output_name = some o)
    (hr : world.openRead i = some content) (hw : world.canWrite o = true)
    (hf : content.length < fuel) :
    (mainTranslate true fuel world p).outcome = .ok 0
      ∧ (mainTranslate true fuel world p).outfile
          = some (prologue ++ translation (beforeFF content) ++ epilogue) := by
  obtain ⟨k, rfl⟩ : ∃ k, fuel = content.length + 1 + k := ⟨fuel - (content.length + 1), by omega⟩
  have hg := generate_signed content k
  unfold opened at hg
  unfold mainTranslate
  simp only [hi, ho, hr, hw, if_true, hg]
  exact ⟨rfl, rfl⟩

theorem main_defaults (q : Proc) (ia oa : Option String)
    (h5 : q.input_was_specified = 0 ↔ ia = none) (h6 : q.output_was_specified = 0 ↔ oa = none)
    (h3 : q.bf_input_name = ia) (h4 : q.c_output_name = oa) :
    ∃ p2, (if (if q.input_was_specified = 0 then { q with bf_input_name := some "brainfuck.in" }
                else q).output_was_specified = 0
            then { (if q.input_was_specified = 0 then { q with bf_input_name := some "brainfuck.in" }
                    else q) with c_output_name := some "brainfuck.out.c" }
            else (if q.input_was_specified = 0 then { q with bf_input_name := some "brainfuck.in" }
                  else q)) = p2
      ∧ p2.bf_input_name = some (ia.getD "brainfuck.in")
      ∧ p2.c_output_name = some (oa.getD "brainfuck.out.c")
      ∧ p2.calls = q.calls ∧ p2.stdout = q.stdout := by
  refine ⟨_, rfl, ?_⟩
  cases ia with
  | none =>
    have e5 : q.input_was_specified = 0 := h5.mpr rfl
    cases oa with
    | none =>
      have e6 : q.output_was_specified = 0 := h6.mpr rfl
      simp [e5, e6]
    | some b =>
      have e6 : q.output_was_specified ≠ 0 := fun e => by simpa using h6.mp e
      simp [e5, e6, h4]
  | some a =>
    have e5 : q.input_was_specified ≠ 0 := fun e => by simpa using h5.mp e
    cases oa with
    | none =>
      have e6 : q.output_was_specified = 0 := h6.mpr rfl
      simp [e5, e6, h3]
    | some b =>
      have e6 : q.output_was_specified ≠ 0 := fun e => by simpa using h6.mp e
      simp [e5, e6, h3, h4]

/-- A run in which `getopt` reports no invalid option: the calls of `options`,
the two `fopen` calls with the names selected, the call of `generate`, and, when
`generate` returned, the two `fclose` calls; exit status 0 when both files
opened and the fuel covers the input. -/
theorem main_run (argc : Int) (ds : List Delivery) (world : World) (fuel : Nat)
    (hv : 2 ≤ argc → Delivery.invalid ∉ ds) (hf : ds.length < fuel) :
    ∃ i o n tail,
      i = (if argc < 2 then "brainfuck.in" else (inputArg ds).getD "brainfuck.in")
      ∧ o = (if argc < 2 then "brainfuck.out.c" else (outputArg ds).getD "brainfuck.out.c")
      ∧ n = (if argc < 2 then 0 else ds.count .optH)
      ∧ (main true fuel argc ds world).calls
          = List.replicate n .options
            ++ [.fopen i "r" (world.openRead i).isSome, .fopen o "w" (world.canWrite o), .generate]
            ++ tail
      ∧ (tail = [] ∨ tail = [.fclose, .fclose])
      ∧ (main true fuel argc ds world).stdout
          = (if argc < 2 then
              "The default values have been chosen. Call the program with -h for help.\n\n"
             else repeatText n usageText)
      ∧ (∀ content, world.openRead i = some content → world.canWrite o = true →
          content.length < fuel →
            (main true fuel argc ds world).outcome = .ok 0
              ∧ (main true fuel argc ds world).outfile
                  = some (prologue ++ translation (beforeFF content) ++ epilogue)) := by
  by_cases hargc : argc < 2
  · obtain ⟨tail, hc, ht, hs⟩ := mainTranslate_calls true fuel world
      { bf_input_name := some "brainfuck.in", c_output_name := some "brainfuck.out.c",
        input_was_specified := 0, output_was_specified := 0, pending := ds, optarg := none,
        stdout := "" ++ "The default values have been chosen. Call the program with -h for help.\n\n",
        calls := [] } "brainfuck.in" "brainfuck.out.c" rfl rfl
    refine ⟨"brainfuck.in", "brainfuck.out.c", 0, tail, by simp [hargc], by simp [hargc],
      by simp [hargc], ?_, ht, ?_, ?_⟩
    · simp only [main, hargc, if_true, printf]
      simpa using hc
    · simp only [main, hargc, if_true, printf]
      simpa using hs
    · intro content hr hw hlen
      simp only [main, hargc, if_true, printf]
      exact mainTranslate_ok fuel world _ "brainfuck.in" "brainfuck.out.c" content rfl rfl hr hw hlen
  · have hv1 := hv (by omega)
    obtain ⟨k, rfl⟩ : ∃ k, fuel = ds.length + 1 + k := ⟨fuel - (ds.length + 1), by omega⟩
    obtain ⟨q, hq, h1, h2, h3, h4, h5, h6⟩ := optionLoop_valid ds hv1 k
      { bf_input_name := none, c_output_name := none, input_was_specified := 0,
        output_was_specified := 0, pending := ds, optarg := none, stdout := "", calls := [] } rfl
    have h3a : q.bf_input_name = inputArg ds := by rw [h3]; cases inputArg ds <;> rfl
    have h4a : q.c_output_name = outputArg ds := by rw [h4]; cases outputArg ds <;> rfl
    obtain ⟨p2, hp2, hi, ho, hcalls, hout⟩ := main_defaults q (inputArg ds) (outputArg ds)
      (by simpa using h5) (by simpa using h6) h3a h4a
    obtain ⟨tail, hc, ht, hs⟩ := mainTranslate_calls true (ds.length + 1 + k) world p2 _ _ hi ho
    have hmain : main true (ds.length + 1 + k) argc ds world
        = mainTranslate true (ds.length + 1 + k) world p2 := by
      simp only [main, hargc, if_false, hq, hp2]
    refine ⟨(inputArg ds).getD "brainfuck.in", (outputArg ds).getD "brainfuck.out.c",
      ds.count .optH, tail, by simp [hargc], by simp [hargc], by simp [hargc], ?_, ht, ?_, ?_⟩
    · rw [hmain, hc, hcalls, h1]
      simp
    · rw [hmain, hs, hout, h2]
      simp [hargc]
    · intro content hr hw hlen
      rw [hmain]
      exact mainTranslate_ok _ world p2 _ _ content hi ho hr hw hlen

theorem main_of_invalid (argc : Int) (ds : List Delivery) (world : World) (fuel : Nat)
    (hargc : 2 ≤ argc) (hv : Delivery.invalid ∈ ds) (hf : ds.length < fuel) :
    ∃ n t, (main true fuel argc ds world).calls = List.replicate n .options
      ∧ (main true fuel argc ds world).stdout = t ++ "Invalid arguments!\n"
      ∧ (main true fuel argc ds world).outcome = .ok 1
      ∧ (main true fuel argc ds world).outfile = none := by
  obtain ⟨k, rfl⟩ : ∃ k, fuel = ds.length + 1 + k := ⟨fuel - (ds.length + 1), by omega⟩
  obtain ⟨q, n, t, hq, h1, h2⟩ := optionLoop_of_invalid ds hv k
    { bf_input_name := none, c_output_name := none, input_was_specified := 0,
      output_was_specified := 0, pending := ds, optarg := none, stdout := "", calls := [] } rfl
  have hargc1 : ¬ argc < 2 := by omega
  refine ⟨n, t, ?_, ?_, ?_, ?_⟩
  · simp only [main, hargc1, if_false, hq, Proc.ended, h1]
    simp
  · simp only [main, hargc1, if_false, hq, Proc.ended, h2]
    simp
  · simp only [main, hargc1, if_false, hq, Proc.ended]
  · simp only [main, hargc1, if_false, hq, Proc.ended]

theorem fopenCalls_append (l1 l2 : List Call) :
    fopenCalls (l1 ++ l2) = fopenCalls l1 ++ fopenCalls l2 := by
  induction l1 with
  | nil => rfl
  | cons c rest ih => cases c <;> simp [fopenCalls, ih]

theorem fopenCalls_replicate_options (n : Nat) :
    fopenCalls (List.replicate n .options) = [] := by
  induction n with
  | zero => rfl
  | succ n ih => simp [List.replicate_succ, fopenCalls, ih]

theorem generate_not_mem_replicate_options (n : Nat) :
    Call.generate ∉ List.replicate n Call.options := by
  intro h
  have := List.eq_of_mem_replicate h
  cases this

/-- No `-i` delivered, no argument selected; and a selected argument is the
argument of a `-i` that was delivered. -/
theorem inputArg_spec (ds : List Delivery) :
    (inputArg ds = none ↔ ∀ a, Delivery.optI a ∉ ds)
      ∧ ∀ a, inputArg ds = some a → Delivery.optI a ∈ ds := by
  induction ds with
  | nil => simp [inputArg]
  | cons d rest ih =>
    obtain ⟨ih1, ih2⟩ := ih
    cases d with
    | optI arg =>
      refine ⟨⟨fun h => by simp [inputArg] at h,
        fun h => absurd (List.mem_cons_self _ _) (h arg)⟩, ?_⟩
      intro a ha
      cases h : inputArg rest with
      | none =>
        simp [inputArg, h] at ha
        simp [ha]
      | some b =>
        simp [inputArg, h] at ha
        exact List.mem_cons_of_mem _ (ih2 a (by rw [h, ha]))
    | optO arg => simpa [inputArg] using ⟨ih1, ih2⟩
    | optH => simpa [inputArg] using ⟨ih1, ih2⟩
    | invalid => simpa [inputArg] using ⟨ih1, ih2⟩

theorem outputArg_spec (ds : List Delivery) :
    (outputArg ds = none ↔ ∀ a, Delivery.optO a ∉ ds)
      ∧ ∀ a, outputArg ds = some a → Delivery.optO a ∈ ds := by
  induction ds with
  | nil => simp [outputArg]
  | cons d rest ih =>
    obtain ⟨ih1, ih2⟩ := ih
    cases d with
    | optO arg =>
      refine ⟨⟨fun h => by simp [outputArg] at h,
        fun h => absurd (List.mem_cons_self _ _) (h arg)⟩, ?_⟩
      intro a ha
      cases h : outputArg rest with
      | none =>
        simp [outputArg, h] at ha
        simp [ha]
      | some b =>
        simp [outputArg, h] at ha
        exact List.mem_cons_of_mem _ (ih2 a (by rw [h, ha]))
    | optI arg => simpa [outputArg] using ⟨ih1, ih2⟩
    | optH => simpa [outputArg] using ⟨ih1, ih2⟩
    | invalid => simpa [outputArg] using ⟨ih1, ih2⟩

/-- The argument selected is that of the last `-i`. -/
theorem inputArg_append_optI (ds rest : List Delivery) (a : String)
    (h : ∀ b, Delivery.optI b ∉ rest) : inputArg (ds ++ .optI a :: rest) = some a := by
  have hr : inputArg rest = none := (inputArg_spec rest).1.mpr h
  induction ds with
  | nil => simp [inputArg, hr]
  | cons d ds ih => cases d <;> simp [inputArg, ih]

theorem outputArg_append_optO (ds rest : List Delivery) (a : String)
    (h : ∀ b, Delivery.optO b ∉ rest) : outputArg (ds ++ .optO a :: rest) = some a := by
  have hr : outputArg rest = none := (outputArg_spec rest).1.mpr h
  induction ds with
  | nil => simp [outputArg, hr]
  | cons d ds ih => cases d <;> simp [outputArg, ih]

/-- C8, as stated, fails for the argument vector `-h` alone with files that open:
`main` calls `options` and then opens both files under their default names, calls
`generate`, closes the files and returns 0, leaving a translated output. -/
theorem main_help_translates :
    (main true 2 2 [.optH] emptyFiles).calls
        = [.options, .fopen "brainfuck.in" "r" true, .fopen "brainfuck.out.c" "w" true,
            .generate, .fclose, .fclose]
      ∧ (main true 2 2 [.optH] emptyFiles).outfile = some (prologue ++ epilogue)
      ∧ (main true 2 2 [.optH] emptyFiles).outcome = .ok 0 := by
  decide

/-- C8, amended, with signed `char`: when `getopt` delivers `-h` and no invalid
option, `main` calls `options` once for each `-h`, which prints the usage text,
and then goes on as it does without `-h`: it opens the input file and the output
file under the names selected and calls `generate` once. -/
theorem main_help (argc : Int) (ds : List Delivery) (world : World) (fuel : Nat)
    (hargc : 2 ≤ argc) (hh : Delivery.optH ∈ ds) (hv : Delivery.invalid ∉ ds)
    (hf : ds.length < fuel) :
    Call.options ∈ (main true fuel argc ds world).calls
      ∧ (main true fuel argc ds world).calls.count .options = ds.count .optH
      ∧ (main true fuel argc ds world).stdout = repeatText (ds.count .optH) usageText
      ∧ fopenCalls (main true fuel argc ds world).calls
          = [((inputArg ds).getD "brainfuck.in", "r"), ((outputArg ds).getD "brainfuck.out.c", "w")]
      ∧ (main true fuel argc ds world).calls.count .generate = 1 := by
  have hargc1 : ¬ argc < 2 := by omega
  obtain ⟨i, o, n, tail, hi, ho, hn, hc, ht, hs, -⟩ := main_run argc ds world fuel (fun _ => hv) hf
  simp only [hargc1, if_false] at hi ho hn hs
  subst hi ho hn
  have hpos : 0 < ds.count .optH := List.count_pos_iff.mpr hh
  rw [hc, hs]
  rcases ht with rfl | rfl
  · refine ⟨?_, ?_, rfl, ?_, ?_⟩
    · simp; omega
    · simp [List.count_replicate]
    · simp [fopenCalls_append, fopenCalls_replicate_options, fopenCalls]
    · simp [List.count_replicate]
  · refine ⟨?_, ?_, rfl, ?_, ?_⟩
    · simp; omega
    · simp [List.count_replicate]
    · simp [fopenCalls_append, fopenCalls_replicate_options, fopenCalls]
    · simp [List.count_replicate]

theorem main_help_witness :
    (2 : Int) ≤ 4 ∧ Delivery.optH ∈ [Delivery.optI "a.bf", Delivery.optH]
      ∧ Delivery.invalid ∉ [Delivery.optI "a.bf", Delivery.optH]
      ∧ fopenCalls (main true 3 4 [.optI "a.bf", .optH] noInputFile).calls
          = [("a.bf", "r"), ("brainfuck.out.c", "w")]
      ∧ (main true 3 4 [.optI "a.bf", .optH] noInputFile).calls.count .generate = 1 :=
  ⟨by decide, by decide, by decide,
    (main_help 4 [.optI "a.bf", .optH] noInputFile 3 (by decide) (by decide) (by decide)
      (by decide)).2.2.2⟩

/-- C9, as stated, fails for a run without arguments when `brainfuck.in` cannot be
opened: `generate` is called, once, with `infile` equal to `NULL`, and `fgetc`
on it is undefined behaviour; `main` does not return 0. -/
theorem main_without_input_file :
    Call.generate ∈ (main true 1 1 [] noInputFile).calls
      ∧ (main true 1 1 [] noInputFile).calls
          = [.fopen "brainfuck.in" "r" false, .fopen "brainfuck.out.c" "w" true, .generate]
      ∧ (main true 1 1 [] noInputFile).outcome = .undefined
      ∧ (main true 1 1 [] noInputFile).outcome ≠ .ok 0 := by
  decide

/-- C9, amended, with signed `char`: when `getopt` reports an invalid option,
`main` prints `Invalid arguments!` last and ends with exit status 1, having
opened no file and not called `generate`; on every run that calls `generate`, it
is called exactly once, and `main` returns 0 provided neither `fopen` failed
(the fuel covering the input). -/
theorem main_invalid_or_single_run (argc : Int) (ds : List Delivery) (world : World)
    (fuel : Nat) (hf : ds.length < fuel) :
    (2 ≤ argc → Delivery.invalid ∈ ds →
        (∃ t, (main true fuel argc ds world).stdout = t ++ "Invalid arguments!\n")
          ∧ (main true fuel argc ds world).outcome = .ok 1
          ∧ fopenCalls (main true fuel argc ds world).calls = []
          ∧ Call.generate ∉ (main true fuel argc ds world).calls)
      ∧ (Call.generate ∈ (main true fuel argc ds world).calls →
          (main true fuel argc ds world).calls.count .generate = 1
            ∧ ((∀ path mode, Call.fopen path mode false ∉ (main true fuel argc ds world).calls) →
                (∀ path content, world.openRead path = some content → content.length < fuel) →
                (main true fuel argc ds world).outcome = .ok 0)) := by
  constructor
  · intro hargc hv
    obtain ⟨n, t, hc, hs, ho, -⟩ := main_of_invalid argc ds world fuel hargc hv hf
    refine ⟨⟨t, hs⟩, ho, ?_, ?_⟩
    · rw [hc, fopenCalls_replicate_options]
    · rw [hc]
      exact generate_not_mem_replicate_options n
  · intro hg
    by_cases hbad : 2 ≤ argc ∧ Delivery.invalid ∈ ds
    · obtain ⟨n, t, hc, -⟩ := main_of_invalid argc ds world fuel hbad.1 hbad.2 hf
      rw [hc] at hg
      exact absurd hg (generate_not_mem_replicate_options n)
    · obtain ⟨i, o, n, tail, -, -, -, hc, ht, -, hok⟩ :=
        main_run argc ds world fuel (fun h1 h2 => hbad ⟨h1, h2⟩) hf
      constructor
      · rw [hc]
        rcases ht with rfl | rfl <;> simp [List.count_replicate]
      · intro hopen hfuel
        have hr : (world.openRead i).isSome = true := by
          cases h : (world.openRead i).isSome with
          | true => rfl
          | false =>
            exfalso
            apply hopen i "r"
            rw [hc, h]
            simp
        have hw : world.canWrite o = true := by
          cases h : world.canWrite o with
          | true => rfl
          | false =>
            exfalso
            apply hopen o "w"
            rw [hc, h]
            simp
        obtain ⟨content, hcontent⟩ := Option.isSome_iff_exists.mp hr
        exact (hok content hcontent hw (hfuel i content hcontent)).1

theorem main_invalid_or_single_run_witness :
    [Delivery.optH, Delivery.invalid].length < 3 ∧ (2 : Int) ≤ 3
      ∧ Delivery.invalid ∈ [Delivery.optH, Delivery.invalid]
      ∧ (main true 3 3 [.optH, .invalid] emptyFiles).outcome = .ok 1
      ∧ Call.generate ∈ (main true 3 2 [.optH] emptyFiles).calls
      ∧ (main true 3 2 [.optH] emptyFiles).outcome = .ok 0 := by
  have hc : (main true 3 2 [.optH] emptyFiles).calls
      = [.options, .fopen "brainfuck.in" "r" true, .fopen "brainfuck.out.c" "w" true,
          .generate, .fclose, .fclose] := by decide
  have hg : Call.generate ∈ (main true 3 2 [.optH] emptyFiles).calls := by rw [hc]; decide
  refine ⟨by decide, by decide, by decide,
    ((main_invalid_or_single_run 3 [.optH, .invalid] emptyFiles 3 (by decide)).1 (by decide)
      (by decide)).2.1, hg, ?_⟩
  refine ((main_invalid_or_single_run 2 [.optH] emptyFiles 3 (by decide)).2 hg).2 ?_ ?_
  · intro path mode
    rw [hc]
    simp
  · intro path content h
    simp only [emptyFiles, Option.some.injEq] at h
    subst h
    decide

/-- C10, with signed `char`: on a run in which `getopt` reports no invalid option,
`main` opens for reading the argument of `-i` (of the last `-i`, if there are
several), or `brainfuck.in` when no `-i` was delivered, and for writing the
argument of `-o`, or `brainfuck.out.c`; these are its only `fopen` calls. Without
arguments (`argc < 2`) both names are the defaults. -/
theorem main_file_names (argc : Int) (ds : List Delivery) (world : World) (fuel : Nat)
    (hv : Delivery.invalid ∉ ds) (hf : ds.length < fuel) :
    fopenCalls (main true fuel argc ds world).calls
        = [((if argc < 2 then "brainfuck.in" else (inputArg ds).getD "brainfuck.in"), "r"),
           ((if argc < 2 then "brainfuck.out.c" else (outputArg ds).getD "brainfuck.out.c"), "w")]
      ∧ (inputArg ds = none ↔ ∀ a, Delivery.optI a ∉ ds)
      ∧ (∀ pre post a, ds = pre ++ Delivery.optI a :: post → (∀ b, Delivery.optI b ∉ post) →
          inputArg ds = some a)
      ∧ (outputArg ds = none ↔ ∀ a, Delivery.optO a ∉ ds)
      ∧ (∀ pre post a, ds = pre ++ Delivery.optO a :: post → (∀ b, Delivery.optO b ∉ post) →
          outputArg ds = some a) := by
  refine ⟨?_, (inputArg_spec ds).1, ?_, (outputArg_spec ds).1, ?_⟩
  · obtain ⟨i, o, n, tail, hi, ho, -, hc, ht, -, -⟩ :=
      main_run argc ds world fuel (fun _ => hv) hf
    rw [hc, ← hi, ← ho]
    rcases ht with rfl | rfl <;>
      simp [fopenCalls_append, fopenCalls_replicate_options, fopenCalls]
  · intro pre post a hds hpost
    rw [hds]
    exact inputArg_append_optI pre post a hpost
  · intro pre post a hds hpost
    rw [hds]
    exact outputArg_append_optO pre post a hpost

theorem main_file_names_witness :
    Delivery.invalid ∉ [Delivery.optI "a.bf", Delivery.optI "b.bf", Delivery.optO "b.c"]
      ∧ [Delivery.optI "a.bf", Delivery.optI "b.bf", Delivery.optO "b.c"].length < 4
      ∧ fopenCalls (main true 4 6 [.optI "a.bf", .optI "b.bf", .optO "b.c"] noInputFile).calls
          = [("b.bf", "r"), ("b.c", "w")]
      ∧ fopenCalls (main true 4 1 [] noInputFile).calls
          = [("brainfuck.in", "r"), ("brainfuck.out.c", "w")] :=
  ⟨by decide, by decide,
    (main_file_names 6 [.optI "a.bf", .optI "b.bf", .optO "b.c"] noInputFile 4 (by decide)
      (by decide)).1,
    (main_file_names 1 [] noInputFile 4 (by decide) (by decide)).1⟩

/-! ## Failure of `fopen` (C11) -/

theorem mainTranslate_failed (fuel : Nat) (world : World) (p : Proc) (i o : String)
    (hi : p.bf_input_name = some i) (ho : p.c_output_name = some o) (hfuel : 0 < fuel)
    (hfail : world.openRead i = none ∨ world.canWrite o = false) :
    (mainTranslate true fuel world p).outcome = .undefined
      ∧ (mainTranslate true fuel world p).outfile = none := by
  obtain ⟨f, rfl⟩ : ∃ f, fuel = f + 1 := ⟨fuel - 1, by omega⟩
  unfold mainTranslate
  simp only [hi, ho]
  cases hw : world.canWrite o with
  | false =>
    simp [generate, fprintf, Res.bind, Proc.ended]
  | true =>
    have hr : world.openRead i = none := by
      rcases hfail with h | h
      · exact h
      · rw [hw] at h; cases h
    simp [hr, generate, fprintf, Res.bind, generateLoop, fgetc, Proc.ended]

/-- A run in which `getopt` reports no invalid option and one of the two files
does not open: the call of `generate` is undefined, no output is completed. -/
theorem main_failed (argc : Int) (ds : List Delivery) (world : World) (fuel : Nat)
    (hv : 2 ≤ argc → Delivery.invalid ∉ ds) (hf : ds.length < fuel)
    (hfail : world.openRead (if argc < 2 then "brainfuck.in"
                else (inputArg ds).getD "brainfuck.in") = none
        ∨ world.canWrite (if argc < 2 then "brainfuck.out.c"
                else (outputArg ds).getD "brainfuck.out.c") = false) :
    (main true fuel argc ds world).outcome = .undefined
      ∧ (main true fuel argc ds world).outfile = none := by
  have hfuel : 0 < fuel := by omega
  by_cases hargc : argc < 2
  · simp only [hargc, if_true] at hfail
    simp only [main, hargc, if_true, printf]
    exact mainTranslate_failed fuel world _ "brainfuck.in" "brainfuck.out.c" rfl rfl hfuel hfail
  · simp only [hargc, if_false] at hfail
    have hv1 := hv (by omega)
    obtain ⟨k, rfl⟩ : ∃ k, fuel = ds.length + 1 + k := ⟨fuel - (ds.length + 1), by omega⟩
    obtain ⟨q, hq, -, -, h3, h4, h5, h6⟩ := optionLoop_valid ds hv1 k
      { bf_input_name := none, c_output_name := none, input_was_specified := 0,
        output_was_specified := 0, pending := ds, optarg := none, stdout := "", calls := [] } rfl
    have h3a : q.bf_input_name = inputArg ds := by rw [h3]; cases inputArg ds <;> rfl
    have h4a : q.c_output_name = outputArg ds := by rw [h4]; cases outputArg ds <;> rfl
    obtain ⟨p2, hp2, hi, ho, -, -⟩ := main_defaults q (inputArg ds) (outputArg ds)
      (by simpa using h5) (by simpa using h6) h3a h4a
    have hmain : main true (ds.length + 1 + k) argc ds world
        = mainTranslate true (ds.length + 1 + k) world p2 := by
      simp only [main, hargc, if_false, hq, hp2]
    rw [hmain]
    exact mainTranslate_failed _ world p2 _ _ hi ho hfuel hfail

/-- C11, as stated, fails when the input file cannot be opened, and when the
output file cannot be opened: `main` reports nothing, calls `generate` all the
same, with the `NULL` stream, and the run is undefined from the first use of
that stream on. -/
theorem main_ignores_fopen_failure :
    (main true 3 5 [.optI "a.bf", .optO "a.c"] noInputFile).calls
        = [.fopen "a.bf" "r" false, .fopen "a.c" "w" true, .generate]
      ∧ (main true 3 5 [.optI "a.bf", .optO "a.c"] noInputFile).stdout = ""
      ∧ (main true 3 5 [.optI "a.bf", .optO "a.c"] noInputFile).outcome = .undefined
      ∧ (main true 1 1 [] readOnly).calls
        = [.fopen "brainfuck.in" "r" true, .fopen "brainfuck.out.c" "w" false, .generate]
      ∧ (main true 1 1 [] readOnly).outcome = .undefined := by
  decide

/-- C11, amended, with signed `char`: `main` does not look at the result of
`fopen`. On every run in which one of its `fopen` calls fails, `main` prints no
message about it (its output is the banner or the usage texts only), calls
`generate` once all the same, and the run is undefined behaviour at the first
use of the `NULL` stream: `main` returns no status and no output is completed. -/
theorem main_unchecked_fopen (argc : Int) (ds : List Delivery) (world : World) (fuel : Nat)
    (hf : ds.length < fuel)
    (hfail : ∃ path mode, Call.fopen path mode false ∈ (main true fuel argc ds world).calls) :
    (main true fuel argc ds world).calls.count .generate = 1
      ∧ (main true fuel argc ds world).stdout
          = (if argc < 2 then
              "The default values have been chosen. Call the program with -h for help.\n\n"
             else repeatText (ds.count .optH) usageText)
      ∧ (main true fuel argc ds world).outcome = .undefined
      ∧ (main true fuel argc ds world).outfile = none := by
  obtain ⟨path, mode, hmem⟩ := hfail
  by_cases hbad : 2 ≤ argc ∧ Delivery.invalid ∈ ds
  · obtain ⟨n, t, hc, -⟩ := main_of_invalid argc ds world fuel hbad.1 hbad.2 hf
    rw [hc] at hmem
    have := List.eq_of_mem_replicate hmem
    cases this
  · have hv : 2 ≤ argc → Delivery.invalid ∉ ds := fun h1 h2 => hbad ⟨h1, h2⟩
    obtain ⟨i, o, n, tail, hi, ho, hn, hc, ht, hs, -⟩ := main_run argc ds world fuel hv hf
    have hfail : world.openRead i = none ∨ world.canWrite o = false := by
      rw [hc] at hmem
      rcases ht with rfl | rfl
      · simp only [List.append_nil, List.mem_append, List.mem_cons, List.mem_singleton,
          Call.fopen.injEq, List.not_mem_nil, or_false] at hmem
        rcases hmem with h | h | h | h
        · have := List.eq_of_mem_replicate h
          cases this
        · exact Or.inl (by simpa using h.2.2.symm)
        · exact Or.inr h.2.2.symm
        · cases h
      · simp only [List.mem_append, List.mem_cons, List.mem_singleton,
          Call.fopen.injEq, List.not_mem_nil, or_false] at hmem
        rcases hmem with (h | h | h | h) | h | h
        · have := List.eq_of_mem_replicate h
          cases this
        · exact Or.inl (by simpa using h.2.2.symm)
        · exact Or.inr h.2.2.symm
        · cases h
        · cases h
        · cases h
    obtain ⟨h1, h2⟩ := main_failed argc ds world fuel hv hf (by rw [← hi, ← ho]; exact hfail)
    refine ⟨?_, ?_, h1, h2⟩
    · rw [hc]
      rcases ht with rfl | rfl <;> simp [List.count_replicate]
    · rw [hs, hn]
      split_ifs <;> rfl

theorem main_unchecked_fopen_witness :
    [Delivery.optO "a.c"].length < 2
      ∧ (∃ path mode, Call.fopen path mode false ∈ (main true 2 3 [.optO "a.c"] readOnly).calls)
      ∧ (main true 2 3 [.optO "a.c"] readOnly).calls.count .generate = 1
      ∧ (main true 2 3 [.optO "a.c"] readOnly).outcome = .undefined := by
  have hfail : ∃ path mode,
      Call.fopen path mode false ∈ (main true 2 3 [.optO "a.c"] readOnly).calls :=
    ⟨"a.c", "w", by decide⟩
  have h := main_unchecked_fopen 3 [.optO "a.c"] readOnly 2 (by decide) hfail
  exact ⟨by decide, hfail, h.1, h.2.2.1⟩

/-! ## Reading the output back -/

theorem stripStart_append (p t : List Char) : stripStart p (p ++ t) = some t := by
  induction p with
  | nil => cases t <;> rfl
  | cons c rest ih => simp [stripStart, ih]

/-- Between the prologue and the epilogue of an output is its body. -/
theorem strip_output (body : String) :
    ((stripStart prologue.data (prologue ++ body ++ epilogue).data).bind fun t =>
      stripStart epilogue.data.reverse t.reverse) = some body.data.reverse := by
  have h1 : (prologue ++ body ++ epilogue).data = prologue.data ++ (body.data ++ epilogue.data) := by
    simp [String.data_append]
  rw [h1, stripStart_append]
  simp only [Option.some_bind, List.reverse_append]
  exact stripStart_append _ _

theorem linesOf_line (t rest cur : List Char) (ht : Char.ofNat 10 ∉ t) :
    linesOf (t ++ Char.ofNat 10 :: rest) cur
      = (linesOf rest []).map fun ls => (cur.reverse ++ t) :: ls := by
  induction t generalizing cur with
  | nil => simp [linesOf]
  | cons c t ih =>
    have hc : c ≠ Char.ofNat 10 := fun e => ht (e ▸ List.mem_cons_self _ _)
    have ht1 : Char.ofNat 10 ∉ t := fun h => ht (List.mem_cons_of_mem _ h)
    show linesOf (c :: (t ++ Char.ofNat 10 :: rest)) cur = _
    rw [linesOf, if_neg hc, ih _ ht1]
    simp

/-- The text of each line: the statement of its symbol is the line and a line
feed, and the line is read back as itself. -/
theorem line_text (l : Line) :
    ∃ t, (statementOf l.symbol).data = t ++ [Char.ofNat 10] ∧ Char.ofNat 10 ∉ t
      ∧ parseLine t = some l ∧ lineOf l.symbol = some l := by
  cases l
  · exact ⟨"ptr++;".data, by decide, by decide, by decide, by decide⟩
  · exact ⟨"ptr--;".data, by decide, by decide, by decide, by decide⟩
  · exact ⟨"++*ptr;".data, by decide, by decide, by decide, by decide⟩
  · exact ⟨"--*ptr;".data, by decide, by decide, by decide, by decide⟩
  · exact ⟨"while(*ptr)\x7b".data, by decide, by decide, by decide, by decide⟩
  · exact ⟨"\x7d".data, by decide, by decide, by decide, by decide⟩
  · exact ⟨"*ptr = getchar();".data, by decide, by decide, by decide, by decide⟩
  · exact ⟨"putchar(*ptr);".data, by decide, by decide, by decide, by decide⟩

theorem lineOf_symbol (b : Byte) (l : Line) (h : lineOf b = some l) : l.symbol = b := by
  unfold lineOf at h
  split_ifs at h with h1 h2 h3 h4 h5 h6 h7 h8 <;>
    (cases h; exact Fin.ext (by simp only [Line.symbol]; omega))

theorem lineOf_none (b : Byte) (h : lineOf b = none) : isSymbol b = false := by
  unfold lineOf at h
  unfold isSymbol
  split_ifs at h with h1 h2 h3 h4 h5 h6 h7 h8
  simp only [Bool.or_eq_false_iff, decide_eq_false_iff_not]
  exact ⟨⟨⟨⟨⟨⟨⟨h1, h2⟩, h3⟩, h4⟩, h5⟩, h6⟩, h7⟩, h8⟩

theorem lineOf_isSymbol (b : Byte) (l : Line) (h : lineOf b = some l) : isSymbol b = true := by
  cases hs : isSymbol b with
  | true => rfl
  | false =>
    exfalso
    unfold isSymbol at hs
    simp only [Bool.or_eq_false_iff, decide_eq_false_iff_not] at hs
    obtain ⟨⟨⟨⟨⟨⟨⟨h1, h2⟩, h3⟩, h4⟩, h5⟩, h6⟩, h7⟩, h8⟩ := hs
    simp only [lineOf, h1, h2, h3, h4, h5, h6, h7, h8, if_false] at h
    cases h

/-- The lines of the statements of a byte sequence are the lines that the `switch`
emits for its bytes, in order. -/
theorem lines_translation (s : List Byte) :
    ∃ ls, linesOf (translation s).data [] = some ls ∧ parseLines ls = some (tokens s) := by
  induction s with
  | nil => exact ⟨[], rfl, rfl⟩
  | cons b rest ih =>
    obtain ⟨ls, h1, h2⟩ := ih
    cases hl : lineOf b with
    | none =>
      refine ⟨ls, ?_, ?_⟩
      · rw [translation, statementOf_of_not_symbol b (lineOf_none b hl), String.empty_append]
        exact h1
      · simp only [tokens, List.filterMap_cons, hl]
        exact h2
    | some l =>
      have hb : l.symbol = b := lineOf_symbol b l hl
      obtain ⟨t, ht, hnl, hp, -⟩ := line_text l
      rw [hb] at ht
      refine ⟨t :: ls, ?_, ?_⟩
      · rw [translation, String.data_append, ht, List.append_assoc, List.singleton_append,
          linesOf_line t _ [] hnl, h1]
        rfl
      · simp only [tokens, List.filterMap_cons, hl, parseLines, hp, Option.some_bind]
        rw [show parseLines ls = some (List.filterMap lineOf rest) from h2]
        rfl

theorem tokens_symbols (s : List Byte) : (tokens s).map Line.symbol = s.filter isSymbol := by
  induction s with
  | nil => rfl
  | cons b rest ih =>
    cases hl : lineOf b with
    | none =>
      have hs : isSymbol b = false := lineOf_none b hl
      simp only [tokens, List.filterMap_cons, hl] at ih ⊢
      rw [ih, List.filter_cons_of_neg (by simp [hs])]
    | some l =>
      have hs : isSymbol b = true := lineOf_isSymbol b l hl
      simp only [tokens, List.filterMap_cons, hl, List.map_cons] at ih ⊢
      rw [ih, List.filter_cons_of_pos hs, lineOf_symbol b l hl]

/-- Decoding gives back the symbols of the bytes whose statements were written. -/
theorem decode_output (s : List Byte) :
    decode (prologue ++ translation s ++ epilogue) = some (s.filter isSymbol) := by
  obtain ⟨ls, h1, h2⟩ := lines_translation s
  have hs := strip_output (translation s)
  unfold decode
  rw [← Option.bind_assoc, hs]
  simp only [Option.some_bind, List.reverse_reverse, h1, h2, Option.map_some', tokens_symbols]

/-- The program of an output is built from the lines emitted for the bytes whose
statements were written. -/
theorem programOf_output (s : List Byte) :
    programOf (prologue ++ translation s ++ epilogue) = build (tokens s) [] .skip := by
  obtain ⟨ls, h1, h2⟩ := lines_translation s
  have hs := strip_output (translation s)
  unfold programOf
  rw [← Option.bind_assoc, hs]
  simp only [Option.some_bind, List.reverse_reverse, statementsOf, h1, h2]

/-! ## Runs and fuel -/

theorem Res.bind_eq_ok {α β : Type} (r : Res α) (g : α → Res β) (b : β) :
    r.bind g = .ok b ↔ ∃ a, r = .ok a ∧ g a = .ok b := by
  cases r with
  | ok a => simp [Res.bind]
  | undefined => simp [Res.bind]
  | outOfFuel => simp [Res.bind]

/-- A run that ended is the same with more fuel. -/
theorem exec_succ (fuel : Nat) (s : CStmt) (m m1 : Machine) (h : exec fuel s m = .ok m1) :
    exec (fuel + 1) s m = .ok m1 := by
  induction fuel generalizing s m m1 with
  | zero => simp [exec] at h
  | succ f ih =>
    cases s with
    | seq s t =>
      simp only [exec, Res.bind_eq_ok] at h ⊢
      obtain ⟨m2, h1, h2⟩ := h
      exact ⟨m2, ih _ _ _ h1, ih _ _ _ h2⟩
    | loop body =>
      simp only [exec] at h ⊢
      split_ifs at h ⊢ with hp hc
      · simp only [Res.bind_eq_ok] at h ⊢
        obtain ⟨m2, h1, h2⟩ := h
        exact ⟨m2, ih _ _ _ h1, ih _ _ _ h2⟩
      · exact h
    | skip => simpa [exec] using h
    | ptrInc => simpa [exec] using h
    | ptrDec => simpa [exec] using h
    | cellInc => simpa [exec] using h
    | cellDec => simpa [exec] using h
    | getchar => simpa [exec] using h
    | putchar => simpa [exec] using h

theorem exec_mono (fuel k : Nat) (s : CStmt) (m m1 : Machine) (h : exec fuel s m = .ok m1) :
    exec (fuel + k) s m = .ok m1 := by
  induction k with
  | zero => exact h
  | succ k ih => exact exec_succ _ _ _ _ ih

/-- One step of a run of a source text that ends. -/
theorem bfRun_cons_ok (f : Nat) (b : Byte) (rest : List Byte) (m m1 : Machine) :
    bfRun (f + 1) (b :: rest) m = .ok m1 ↔
      (b.val = Char.toNat '[' ∧ ∃ body after, matchClose 0 rest = some (body, after)
          ∧ m.ptr < tapeLength
          ∧ (((m.a m.ptr).val ≠ 0
                ∧ ∃ m2, bfRun f body m = .ok m2 ∧ bfRun f (b :: rest) m2 = .ok m1)
              ∨ ((m.a m.ptr).val = 0 ∧ bfRun f after m = .ok m1)))
      ∨ (b.val ≠ Char.toNat '[' ∧ b.val ≠ Char.toNat ']'
          ∧ ∃ m2, bfOp b m = .ok m2 ∧ bfRun f rest m2 = .ok m1) := by
  rw [bfRun]
  by_cases h1 : b.val = Char.toNat '['
  · rw [if_pos h1]
    constructor
    · intro h
      refine Or.inl ⟨h1, ?_⟩
      cases hm : matchClose 0 rest with
      | none => rw [hm] at h; cases h
      | some p =>
        obtain ⟨body, after⟩ := p
        rw [hm] at h
        refine ⟨body, after, rfl, ?_⟩
        by_cases hp : m.ptr < tapeLength
        · refine ⟨hp, ?_⟩
          simp only [hp, if_true] at h
          by_cases hc : (m.a m.ptr).val = 0
          · simp only [hc, ne_eq, not_true_eq_false, if_false] at h
            exact Or.inr ⟨hc, h⟩
          · simp only [hc, ne_eq, not_false_eq_true, if_true] at h
            exact Or.inl ⟨hc, (Res.bind_eq_ok _ _ _).mp h⟩
        · simp only [hp, if_false] at h
          cases h
    · rintro (⟨-, body, after, hm, hp, h⟩ | ⟨h, -⟩)
      · rw [hm]
        simp only [hp, if_true]
        rcases h with ⟨hc, h⟩ | ⟨hc, h⟩
        · simp only [hc, ne_eq, not_false_eq_true, if_true]
          exact (Res.bind_eq_ok _ _ _).mpr h
        · simp only [hc, ne_eq, not_true_eq_false, if_false]
          exact h
      · exact absurd h1 h
  · rw [if_neg h1]
    by_cases h2 : b.val = Char.toNat ']'
    · rw [if_pos h2]
      constructor
      · intro h; cases h
      · rintro (⟨h, -⟩ | ⟨-, h, -⟩)
        · exact absurd h h1
        · exact absurd h2 h
    · rw [if_neg h2]
      constructor
      · intro h
        exact Or.inr ⟨h1, h2, (Res.bind_eq_ok _ _ _).mp h⟩
      · rintro (⟨h, -⟩ | ⟨-, -, h⟩)
        · exact absurd h h1
        · exact (Res.bind_eq_ok _ _ _).mpr h

theorem bfRun_succ (fuel : Nat) (text : List Byte) (m m1 : Machine)
    (h : bfRun fuel text m = .ok m1) : bfRun (fuel + 1) text m = .ok m1 := by
  induction fuel generalizing text m m1 with
  | zero => simp [bfRun] at h
  | succ f ih =>
    cases text with
    | nil => simpa [bfRun] using h
    | cons b rest =>
      rw [bfRun_cons_ok] at h ⊢
      rcases h with ⟨h1, body, after, hm, hp, h | h⟩ | ⟨h1, h2, m2, ha, hb⟩
      · obtain ⟨hc, m2, ha, hb⟩ := h
        exact Or.inl ⟨h1, body, after, hm, hp, Or.inl ⟨hc, m2, ih _ _ _ ha, ih _ _ _ hb⟩⟩
      · exact Or.inl ⟨h1, body, after, hm, hp, Or.inr ⟨h.1, ih _ _ _ h.2⟩⟩
      · exact Or.inr ⟨h1, h2, m2, ha, ih _ _ _ hb⟩

theorem bfRun_mono (fuel k : Nat) (text : List Byte) (m m1 : Machine)
    (h : bfRun fuel text m = .ok m1) : bfRun (fuel + k) text m = .ok m1 := by
  induction k with
  | zero => exact h
  | succ k ih => exact bfRun_succ _ _ _ _ ih

/-! ## Paired source texts -/

theorem matchClose_other (d : Nat) (b : Byte) (rest : List Byte)
    (h1 : b.val ≠ Char.toNat '[') (h2 : b.val ≠ Char.toNat ']') :
    matchClose d (b :: rest) = (matchClose d rest).map fun p => (b :: p.1, p.2) := by
  rw [matchClose.eq_def]
  simp only [if_neg h2, if_neg h1]

theorem matchClose_open (d : Nat) (rest : List Byte) :
    matchClose d (openByte :: rest)
      = (matchClose (d + 1) rest).map fun p => (openByte :: p.1, p.2) := by
  rw [matchClose.eq_def]
  simp only [openByte]
  rw [if_neg (by decide), if_pos (by decide)]

theorem matchClose_close (d : Nat) (rest : List Byte) :
    matchClose (d + 1) (closeByte :: rest)
      = (matchClose d rest).map fun p => (closeByte :: p.1, p.2) := by
  rw [matchClose, if_pos (by decide)]

theorem matchClose_close_zero (rest : List Byte) :
    matchClose 0 (closeByte :: rest) = some ([], rest) := by
  rw [matchClose, if_pos (by decide)]

/-- Looking for a closing `]` goes over a paired text as a whole. -/
theorem matchClose_text (c : Code) (hc : c.proper = true) (d : Nat) (x : List Byte) :
    matchClose d (c.text ++ x) = (matchClose d x).map fun p => (c.text ++ p.1, p.2) := by
  induction c generalizing d x with
  | done => cases h : matchClose d x <;> simp [Code.text, h]
  | byte b rest ih =>
    simp only [Code.proper, Bool.and_eq_true, Bool.not_eq_true', decide_eq_false_iff_not] at hc
    obtain ⟨⟨h1, h2⟩, h3⟩ := hc
    rw [Code.text, List.cons_append, matchClose_other d b _ h1 h2, ih h3]
    cases h : matchClose d x <;> simp [h]
  | loop body rest ihb ihr =>
    simp only [Code.proper, Bool.and_eq_true] at hc
    rw [Code.text, List.cons_append, matchClose_open, List.append_assoc, ihb hc.1,
      List.cons_append, matchClose_close, ihr hc.2]
    cases h : matchClose d x <;> simp [h]

theorem matchClose_body (body : Code) (hb : body.proper = true) (after : List Byte) :
    matchClose 0 (body.text ++ closeByte :: after) = some (body.text, after) := by
  rw [matchClose_text body hb, matchClose_close_zero]
  simp

theorem tokens_append (s t : List Byte) : tokens (s ++ t) = tokens s ++ tokens t := by
  simp [tokens, List.filterMap_append]

theorem tokens_cons (b : Byte) (rest : List Byte) :
    tokens (b :: rest) = (match lineOf b with
      | some l => l :: tokens rest
      | none => tokens rest) := by
  simp only [tokens, List.filterMap_cons]
  cases lineOf b <;> rfl

theorem lineOf_whileOpen (b : Byte) (h : lineOf b = some .whileOpen) :
    b.val = Char.toNat '[' := by
  have := lineOf_symbol b _ h
  rw [← this]
  rfl

theorem lineOf_close (b : Byte) (h : lineOf b = some .close) : b.val = Char.toNat ']' := by
  have := lineOf_symbol b _ h
  rw [← this]
  rfl

theorem build_atom (l : Line) (s : CStmt) (h : l.atom = some s) (ls : List Line)
    (stack : List CStmt) (cur : CStmt) :
    build (l :: ls) stack cur = build ls stack (.seq cur s) := by
  cases l <;> simp only [Line.atom, Option.some.injEq] at h <;> first
    | (subst h; rw [build])
    | cases h

/-- The tree that `build` makes of the lines of a paired text. -/
theorem build_text (c : Code) (hc : c.proper = true) (more : List Line) (stack : List CStmt)
    (cur : CStmt) :
    build (tokens c.text ++ more) stack cur = build more stack (c.stmt cur) := by
  induction c generalizing more stack cur with
  | done => rfl
  | byte b rest ih =>
    simp only [Code.proper, Bool.and_eq_true, Bool.not_eq_true', decide_eq_false_iff_not] at hc
    obtain ⟨⟨h1, h2⟩, h3⟩ := hc
    rw [Code.text, tokens_cons, Code.stmt]
    cases hl : lineOf b with
    | none => exact ih h3 more stack cur
    | some l =>
      cases ha : l.atom with
      | none =>
        exfalso
        cases l with
        | whileOpen => exact h1 (lineOf_whileOpen b hl)
        | close => exact h2 (lineOf_close b hl)
        | ptrInc => cases ha
        | ptrDec => cases ha
        | cellInc => cases ha
        | cellDec => cases ha
        | getchar => cases ha
        | putchar => cases ha
      | some s =>
        simp only [Option.some_bind, ha, List.cons_append]
        rw [build_atom l s ha]
        exact ih h3 more stack _
  | loop body rest ihb ihr =>
    simp only [Code.proper, Bool.and_eq_true] at hc
    have ho : lineOf openByte = some .whileOpen := by decide
    have hcl : lineOf closeByte = some .close := by decide
    rw [Code.text, tokens_cons, ho, tokens_append, tokens_cons, hcl, Code.stmt]
    simp only [List.cons_append, List.append_assoc]
    rw [build, ihb hc.1, build, ihr hc.2]

theorem bracketsOf_cons (x : Byte) (l : List Byte) :
    bracketsOf (x :: l)
      = if x.val = Char.toNat '[' then true :: bracketsOf l
        else if x.val = Char.toNat ']' then false :: bracketsOf l
        else bracketsOf l := by
  simp only [bracketsOf, List.filterMap_cons]
  split_ifs <;> rfl

/-- A text whose loop delimiters are well nested after `d` open loops is a paired
text followed by `d` closing `]`, each with a paired text behind it. -/
theorem exists_code (l : List Byte) (d : Nat) (h : nestedFrom d (bracketsOf l) = true) :
    ∃ (c : Code) (cs : List Code), c.proper = true ∧ (∀ x ∈ cs, x.proper = true)
      ∧ cs.length = d ∧ l = c.text ++ (cs.map fun x => closeByte :: x.text).flatten := by
  induction l generalizing d with
  | nil =>
    cases d with
    | zero => exact ⟨.done, [], rfl, by simp, rfl, rfl⟩
    | succ d => simp [bracketsOf, nestedFrom] at h
  | cons x rest ih =>
    rw [bracketsOf_cons] at h
    by_cases h1 : x.val = Char.toNat '['
    · rw [if_pos h1, nestedFrom] at h
      obtain ⟨c, cs, hc, hcs, hlen, hl⟩ := ih (d + 1) h
      cases cs with
      | nil => simp at hlen
      | cons c1 cs1 =>
        have hx : x = openByte := Fin.ext h1
        refine ⟨.loop c c1, cs1, ?_, fun y hy => hcs y (List.mem_cons_of_mem _ hy), ?_, ?_⟩
        · simp [Code.proper, hc, hcs c1 (List.mem_cons_self _ _)]
        · simpa using hlen
        · rw [hl, hx]
          simp [Code.text]
    · rw [if_neg h1] at h
      by_cases h2 : x.val = Char.toNat ']'
      · rw [if_pos h2] at h
        cases d with
        | zero => simp [nestedFrom] at h
        | succ d =>
          rw [nestedFrom] at h
          obtain ⟨c, cs, hc, hcs, hlen, hl⟩ := ih d h
          have hx : x = closeByte := Fin.ext h2
          refine ⟨.done, c :: cs, rfl, ?_, by simp [hlen], ?_⟩
          · intro y hy
            rcases List.mem_cons.mp hy with e | e
            · exact e ▸ hc
            · exact hcs y e
          · rw [hl, hx]
            simp [Code.text]
      · rw [if_neg h2] at h
        obtain ⟨c, cs, hc, hcs, hlen, hl⟩ := ih d h
        refine ⟨.byte x c, cs, ?_, hcs, hlen, ?_⟩
        · simp only [Code.proper, hc, Bool.and_true, Bool.and_eq_true, Bool.not_eq_true',
            decide_eq_false_iff_not]
          exact ⟨h1, h2⟩
        · rw [hl]
          simp [Code.text]

/-- A text whose loop delimiters are well nested is a paired text. -/
theorem exists_code_of_wellNested (l : List Byte) (h : wellNested (bracketsOf l) = true) :
    ∃ c : Code, c.proper = true ∧ c.text = l := by
  obtain ⟨c, cs, hc, -, hlen, hl⟩ := exists_code l 0 h
  cases cs with
  | nil => exact ⟨c, hc, by simp [hl]⟩
  | cons _ _ => simp at hlen

/-! ## The statements of a paired text and its run as Brainfuck -/

theorem execTo_skip (m m1 : Machine) : execTo .skip m m1 ↔ m1 = m := by
  constructor
  · rintro ⟨f, h⟩
    cases f with
    | zero => simp [exec] at h
    | succ f =>
      simp only [exec, Res.ok.injEq] at h
      exact h.symm
  · rintro rfl
    exact ⟨1, rfl⟩

theorem execTo_seq (s t : CStmt) (m m1 : Machine) :
    execTo (.seq s t) m m1 ↔ ∃ m2, execTo s m m2 ∧ execTo t m2 m1 := by
  constructor
  · rintro ⟨f, h⟩
    cases f with
    | zero => simp [exec] at h
    | succ f =>
      rw [exec, Res.bind_eq_ok] at h
      obtain ⟨m2, h1, h2⟩ := h
      exact ⟨m2, ⟨f, h1⟩, ⟨f, h2⟩⟩
  · rintro ⟨m2, ⟨f1, h1⟩, ⟨f2, h2⟩⟩
    refine ⟨f1 + f2 + 1, ?_⟩
    rw [exec, Res.bind_eq_ok]
    refine ⟨m2, exec_mono f1 f2 _ _ _ h1, ?_⟩
    rw [Nat.add_comm]
    exact exec_mono f2 f1 _ _ _ h2

theorem bfRunTo_nil (m m1 : Machine) : bfRunTo [] m m1 ↔ m1 = m := by
  constructor
  · rintro ⟨f, h⟩
    cases f with
    | zero => simp [bfRun] at h
    | succ f =>
      simp only [bfRun, Res.ok.injEq] at h
      exact h.symm
  · rintro rfl
    exact ⟨1, rfl⟩

theorem bfRunTo_byte (b : Byte) (rest : List Byte) (m m1 : Machine)
    (h1 : b.val ≠ Char.toNat '[') (h2 : b.val ≠ Char.toNat ']') :
    bfRunTo (b :: rest) m m1 ↔ ∃ m2, bfOp b m = .ok m2 ∧ bfRunTo rest m2 m1 := by
  constructor
  · rintro ⟨f, h⟩
    cases f with
    | zero => simp [bfRun] at h
    | succ f =>
      rw [bfRun_cons_ok] at h
      rcases h with ⟨h, -⟩ | ⟨-, -, m2, ha, hb⟩
      · exact absurd h h1
      · exact ⟨m2, ha, ⟨f, hb⟩⟩
  · rintro ⟨m2, ha, ⟨f, hb⟩⟩
    exact ⟨f + 1, (bfRun_cons_ok _ _ _ _ _).mpr (Or.inr ⟨h1, h2, m2, ha, hb⟩)⟩

/-- An operator of Brainfuck does what its statement does in C; a comment does
nothing. -/
theorem bfOp_eq (b : Byte) (m : Machine) :
    bfOp b m = (match (lineOf b).bind Line.atom with
      | some s => exec 1 s m
      | none => .ok m) := by
  unfold bfOp lineOf
  by_cases c1 : b.val = Char.toNat '>'
  · simp only [c1, if_true]; rfl
  by_cases c2 : b.val = Char.toNat '<'
  · simp only [c1, c2, if_true, if_false]; rfl
  by_cases c3 : b.val = Char.toNat '+'
  · simp only [c1, c2, c3, if_true, if_false]; rfl
  by_cases c4 : b.val = Char.toNat '-'
  · simp only [c1, c2, c3, c4, if_true, if_false]; rfl
  by_cases c5 : b.val = Char.toNat '['
  · have d7 : b.val ≠ Char.toNat ',' := by rw [c5]; decide
    have d8 : b.val ≠ Char.toNat '.' := by rw [c5]; decide
    simp only [c1, c2, c3, c4, c5, d7, d8, if_true, if_false]; rfl
  by_cases c6 : b.val = Char.toNat ']'
  · have d7 : b.val ≠ Char.toNat ',' := by rw [c6]; decide
    have d8 : b.val ≠ Char.toNat '.' := by rw [c6]; decide
    simp only [c1, c2, c3, c4, c5, c6, d7, d8, if_true, if_false]; rfl
  by_cases c7 : b.val = Char.toNat ','
  · simp only [c1, c2, c3, c4, c5, c6, c7, if_true, if_false]; rfl
  by_cases c8 : b.val = Char.toNat '.'
  · simp only [c1, c2, c3, c4, c5, c6, c7, c8, if_true, if_false]; rfl
  simp only [c1, c2, c3, c4, c5, c6, c7, c8, if_false]; rfl

theorem exec_atom (l : Line) (s : CStmt) (h : l.atom = some s) (m m1 : Machine) :
    execTo s m m1 ↔ exec 1 s m = .ok m1 := by
  constructor
  · rintro ⟨f, hf⟩
    cases f with
    | zero => simp [exec] at hf
    | succ f =>
      cases l <;> simp only [Line.atom, Option.some.injEq] at h <;> first
        | (subst h; exact hf)
        | cases h
  · intro h1
    exact ⟨1, h1⟩

/-- One step of a run of a loop that ends. -/
theorem exec_loop_ok (f : Nat) (body : CStmt) (m m1 : Machine) :
    exec (f + 1) (.loop body) m = .ok m1 ↔
      m.ptr < tapeLength
        ∧ (((m.a m.ptr).val ≠ 0
              ∧ ∃ m2, exec f body m = .ok m2 ∧ exec f (.loop body) m2 = .ok m1)
            ∨ ((m.a m.ptr).val = 0 ∧ m1 = m)) := by
  rw [exec]
  by_cases hp : m.ptr < tapeLength
  · by_cases hc : (m.a m.ptr).val = 0
    · simp only [hp, hc, if_true, ne_eq, not_true_eq_false, if_false, Res.ok.injEq, true_and,
        false_and, false_or]
      exact eq_comm
    · simp only [hp, hc, if_true, ne_eq, not_false_eq_true, Res.bind_eq_ok, true_and,
        false_and, or_false]
  · simp only [hp, if_false, false_and]
    constructor
    · intro h; cases h
    · intro h; exact h.elim

/-- The loop of C around the statements of a paired text, and the loop of
Brainfuck around that text, when the statements and the text run alike. -/
theorem loop_text (T : CStmt) (body after : List Byte)
    (hm : matchClose 0 (body ++ closeByte :: after) = some (body, after))
    (hbody : ∀ m m1, execTo T m m1 ↔ bfRunTo body m m1) (m m1 : Machine) :
    bfRunTo (openByte :: (body ++ closeByte :: after)) m m1
      ↔ ∃ m2, execTo (.loop T) m m2 ∧ bfRunTo after m2 m1 := by
  have hopen : openByte.val = Char.toNat '[' := rfl
  constructor
  · rintro ⟨f, h⟩
    induction f generalizing m with
    | zero => simp [bfRun] at h
    | succ f ih =>
      rw [bfRun_cons_ok] at h
      rcases h with ⟨-, b1, a1, hm1, hp, h⟩ | ⟨h, -⟩
      · rw [hm] at hm1
        obtain ⟨rfl, rfl⟩ := Prod.mk.inj (Option.some.inj hm1)
        rcases h with ⟨hc, mb, ha, hb⟩ | ⟨hc, h⟩
        · obtain ⟨m2, ⟨f2, h2⟩, h3⟩ := ih mb hb
          obtain ⟨f1, h1⟩ := (hbody m mb).mpr ⟨f, ha⟩
          refine ⟨m2, ⟨f1 + f2 + 1, ?_⟩, h3⟩
          rw [exec_loop_ok]
          refine ⟨hp, Or.inl ⟨hc, mb, exec_mono f1 f2 _ _ _ h1, ?_⟩⟩
          rw [Nat.add_comm]
          exact exec_mono f2 f1 _ _ _ h2
        · exact ⟨m, ⟨1, (exec_loop_ok 0 T m m).mpr ⟨hp, Or.inr ⟨hc, rfl⟩⟩⟩, ⟨f, h⟩⟩
      · exact absurd hopen h
  · rintro ⟨m2, ⟨f, h⟩, hafter⟩
    induction f generalizing m with
    | zero => simp [exec] at h
    | succ f ih =>
      rw [exec_loop_ok] at h
      obtain ⟨hp, h⟩ := h
      rcases h with ⟨hc, mb, ha, hb⟩ | ⟨hc, rfl⟩
      · obtain ⟨f2, h2⟩ := ih mb hb
        obtain ⟨f1, h1⟩ := (hbody m mb).mp ⟨f, ha⟩
        refine ⟨f1 + f2 + 1, ?_⟩
        rw [bfRun_cons_ok]
        refine Or.inl ⟨hopen, body, after, hm, hp, Or.inl ⟨hc, mb, bfRun_mono f1 f2 _ _ _ h1, ?_⟩⟩
        rw [Nat.add_comm]
        exact bfRun_mono f2 f1 _ _ _ h2
      · obtain ⟨f2, h2⟩ := hafter
        exact ⟨f2 + 1, (bfRun_cons_ok _ _ _ _ _).mpr
          (Or.inl ⟨hopen, body, after, hm, hp, Or.inr ⟨hc, h2⟩⟩)⟩

/-- The statements that `build` makes of a paired text run as the text runs as
Brainfuck. -/
theorem stmt_text (c : Code) (hc : c.proper = true) (cur : CStmt) (m m1 : Machine) :
    execTo (c.stmt cur) m m1 ↔ ∃ m2, execTo cur m m2 ∧ bfRunTo c.text m2 m1 := by
  induction c generalizing cur m m1 with
  | done =>
    simp only [Code.stmt, Code.text, bfRunTo_nil]
    constructor
    · intro h; exact ⟨m1, h, rfl⟩
    · rintro ⟨m2, h, rfl⟩; exact h
  | byte b rest ih =>
    simp only [Code.proper, Bool.and_eq_true, Bool.not_eq_true', decide_eq_false_iff_not] at hc
    obtain ⟨⟨h1, h2⟩, h3⟩ := hc
    have hop := bfOp_eq b
    simp only [Code.text, bfRunTo_byte b _ _ _ h1 h2]
    rw [Code.stmt]
    cases ha : (lineOf b).bind Line.atom with
    | none =>
      simp only [ha] at hop
      simp only [ih h3, hop, Res.ok.injEq]
      constructor
      · rintro ⟨m2, hx, hy⟩; exact ⟨m2, hx, m2, rfl, hy⟩
      · rintro ⟨m2, hx, m3, rfl, hy⟩; exact ⟨m2, hx, hy⟩
    | some s =>
      simp only [ha] at hop
      obtain ⟨l, -, hl⟩ := Option.bind_eq_some.mp ha
      simp only [ih h3, execTo_seq, hop]
      constructor
      · rintro ⟨m3, ⟨m2, hx, hy⟩, hz⟩
        exact ⟨m2, hx, m3, (exec_atom l s hl m2 m3).mp hy, hz⟩
      · rintro ⟨m2, hx, m3, hy, hz⟩
        exact ⟨m3, ⟨m2, hx, (exec_atom l s hl m2 m3).mpr hy⟩, hz⟩
  | loop body rest ihb ihr =>
    simp only [Code.proper, Bool.and_eq_true] at hc
    have hbody : ∀ m m1, execTo (body.stmt .skip) m m1 ↔ bfRunTo body.text m m1 := by
      intro m m1
      rw [ihb hc.1]
      constructor
      · rintro ⟨m2, hx, hy⟩
        rw [(execTo_skip m m2).mp hx] at hy
        exact hy
      · intro h
        exact ⟨m, (execTo_skip m m).mpr rfl, h⟩
    have hl := loop_text (body.stmt .skip) body.text rest.text (matchClose_body body hc.1 _) hbody
    rw [Code.stmt, ihr hc.2]
    simp only [execTo_seq, Code.text, hl]
    constructor
    · rintro ⟨m3, ⟨m2, hx, hy⟩, hz⟩
      exact ⟨m2, hx, m3, hy, hz⟩
    · rintro ⟨m2, hx, m3, hy, hz⟩
      exact ⟨m3, ⟨m2, hx, hy⟩, hz⟩

/-! ## The generated program and the Brainfuck source (C12) -/

/-- Without a byte `0xFF` in the source (signed `char`) and with well-nested loop
delimiters, the output of `generate` is a program, and from every state of the
array, `ptr` and the standard streams it runs to an end exactly when the source
does as Brainfuck, and to the same state, with the same bytes written. -/
theorem generate_refines (s : List Byte) (h255 : ∀ b ∈ s, b.val ≠ 255)
    (hn : wellNested (bracketsOf s) = true) (k : Nat) :
    ∃ prog, (written (generate true (s.length + 1 + k) (opened s))).bind programOf = some prog
      ∧ ∀ m m1, execTo prog m m1 ↔ bfRunTo s m m1 := by
  obtain ⟨c, hc, rfl⟩ := exists_code_of_wellNested s hn
  refine ⟨c.stmt .skip, ?_, ?_⟩
  · rw [generate_signed_noFF _ h255, Option.some_bind, programOf_output]
    have h := build_text c hc [] [] .skip
    rw [List.append_nil] at h
    rw [h]
    rfl
  · intro m m1
    rw [stmt_text c hc]
    constructor
    · rintro ⟨m2, hx, hy⟩
      rw [(execTo_skip m m2).mp hx] at hy
      exact hy
    · intro h
      exact ⟨m, (execTo_skip m m).mpr rfl, h⟩

/-- C12, at the source `0xFF '.'` with signed `char`, from any contents of the
array and any standard input, `ptr` at the first cell: the Brainfuck source
takes `0xFF` for a comment and writes the current block; the program that
`generate` writes has no statement between its declarations and `return 0;`
and writes nothing. -/
theorem generate_semantics_at_0xFF (a : Nat → Byte) (input : List Byte) (k j : Nat) :
    bfRun (3 + j) [255, 46] { a := a, ptr := 0, stdin := input, stdout := [] }
        = .ok { a := a, ptr := 0, stdin := input, stdout := [a 0] }
      ∧ (written (generate true (3 + k) (opened [255, 46]))).bind programOf = some .skip
      ∧ exec (1 + j) .skip { a := a, ptr := 0, stdin := input, stdout := [] }
        = .ok { a := a, ptr := 0, stdin := input, stdout := [] } := by
  have h : generate true (3 + k) (opened [255, 46]) = _ := generate_signed [255, 46] k
  refine ⟨?_, ?_, ?_⟩
  · rw [show 3 + j = ((j + 1) + 1) + 1 by omega]
    rfl
  · rw [h]
    decide
  · rw [show 1 + j = j + 1 by omega]
    rfl

/-! ## Brace balance (C13) -/

theorem bracesOf_append (s t : String) : bracesOf (s ++ t) = bracesOf s ++ bracesOf t := by
  simp [bracesOf, String.data_append, List.filterMap_append]

theorem bracesOf_statementOf (b : Byte) : bracesOf (statementOf b) = bracketsOf [b] := by
  unfold statementOf
  simp only [bracketsOf, List.filterMap_cons, List.filterMap_nil]
  have hc := symbol_codes
  split_ifs <;> first | rfl | omega

theorem bracesOf_translation (s : List Byte) : bracesOf (translation s) = bracketsOf s := by
  induction s with
  | nil => rfl
  | cons b rest ih =>
    rw [translation, bracesOf_append, bracesOf_statementOf, ih]
    simp only [bracketsOf, List.filterMap_cons, List.filterMap_nil]
    split <;> rfl

/-- The braces of an output: that of `main`, those of the loop delimiters whose
statements were written, that of the epilogue. -/
theorem bracesOf_output (s : List Byte) :
    bracesOf (prologue ++ translation s ++ epilogue) = true :: (bracketsOf s ++ [false]) := by
  rw [bracesOf_append, bracesOf_append, bracesOf_translation]
  have h1 : bracesOf prologue = [true] := by decide
  have h2 : bracesOf epilogue = [false] := by decide
  rw [h1, h2]
  rfl

theorem outerFrom_append_close (l : List Bool) (depth : Nat) :
    outerFrom depth (l ++ [false]) = nestedFrom depth l := by
  induction l generalizing depth with
  | nil => cases depth <;> simp [outerFrom, nestedFrom]
  | cons x rest ih =>
    cases x with
    | true =>
      simp only [List.cons_append, outerFrom, nestedFrom]
      exact ih (depth + 1)
    | false =>
      cases depth with
      | zero => cases rest <;> simp [outerFrom, nestedFrom]
      | succ d =>
        simp only [List.cons_append, outerFrom, nestedFrom]
        exact ih d

/-- The braces of an output are well nested, the last closing that of `main`,
exactly when the loop delimiters whose statements were written are well
nested. -/
theorem closedByLast_output (s : List Byte) :
    closedByLast (bracesOf (prologue ++ translation s ++ epilogue))
      = wellNested (bracketsOf s) := by
  rw [bracesOf_output]
  exact outerFrom_append_close _ 0

/-- Without a byte `0xFF` in the input (signed `char`), the braces of the output
of `generate` are well nested, the last closing that of `main`, exactly when the
loop delimiters of the input are well nested. -/
theorem generate_braces_noFF (s : List Byte) (h : ∀ b ∈ s, b.val ≠ 255) (k : Nat) :
    ∃ out, written (generate true (s.length + 1 + k) (opened s)) = some out
      ∧ closedByLast (bracesOf out) = wellNested (bracketsOf s) :=
  ⟨_, generate_signed_noFF s h k, closedByLast_output s⟩

/-- C13, at the input `0xFF '['` with signed `char`: the `[` of the input is
unmatched, and the braces of the output of `generate`, the prologue directly
followed by the epilogue, are well nested with the last closing that of
`main`. -/
theorem generate_braces_at_0xFF (k : Nat) :
    written (generate true (3 + k) (opened [255, 91])) = some (prologue ++ epilogue)
      ∧ bracesOf (prologue ++ epilogue) = [true, false]
      ∧ closedByLast (bracesOf (prologue ++ epilogue)) = true
      ∧ bracketsOf [255, 91] = [true]
      ∧ wellNested (bracketsOf [255, 91]) = false := by
  have h : generate true (3 + k) (opened [255, 91]) = _ := generate_signed [255, 91] k
  rw [h]
  exact ⟨by decide, by decide, by decide, by decide, by decide⟩

/-! ## Nothing lost but comments (C14) -/

/-- The eight statements are pairwise distinct, and each is one line that ends
in a line feed. -/
theorem statements_distinct :
    (List.map statementOf [62, 60, 43, 45, 91, 93, 44, 46]).Nodup
      ∧ ∀ b ∈ ([62, 60, 43, 45, 91, 93, 44, 46] : List Byte),
          lineCount (statementOf b) = 1 ∧ (statementOf b).data.getLast? = some (Char.ofNat 10) := by
  decide

/-- Decoding the output of `generate` gives the symbols of the bytes ahead of the
first `0xFF` (signed `char`). -/
theorem generate_decode (s : List Byte) (k : Nat) :
    (written (generate true (s.length + 1 + k) (opened s))).bind decode
      = some ((beforeFF s).filter isSymbol) := by
  rw [generate_signed]
  exact decode_output (beforeFF s)

/-- Two inputs have the same output exactly when the bytes ahead of their first
`0xFF` have the same symbols in the same order (signed `char`). -/
theorem generate_eq_iff (s t : List Byte) (k j : Nat) :
    written (generate true (s.length + 1 + k) (opened s))
        = written (generate true (t.length + 1 + j) (opened t))
      ↔ (beforeFF s).filter isSymbol = (beforeFF t).filter isSymbol := by
  constructor
  · intro h
    have hs := generate_decode s k
    have ht := generate_decode t j
    rw [h, ht] at hs
    exact (Option.some.inj hs).symm
  · intro h
    rw [generate_signed, generate_signed]
    show some (prologue ++ translation (beforeFF s) ++ epilogue)
      = some (prologue ++ translation (beforeFF t) ++ epilogue)
    rw [← translation_filter (beforeFF s), h, translation_filter]

/-- C14, at the inputs `0xFF '+'` and the empty input, with signed `char`: the
two inputs differ in their symbols and `generate` gives the same output for
both; decoding that output gives no symbol, not the `+` of the first input. -/
theorem generate_same_output_at_0xFF (k : Nat) :
    written (generate true (3 + k) (opened [255, 43]))
        = written (generate true (1 + k) (opened []))
      ∧ ([255, 43] : List Byte).filter isSymbol = [43]
      ∧ ([] : List Byte).filter isSymbol = []
      ∧ (written (generate true (3 + k) (opened [255, 43]))).bind decode = some [] := by
  have h : generate true (3 + k) (opened [255, 43]) = _ := generate_signed [255, 43] k
  have h0 : generate true (1 + k) (opened []) = _ := generate_signed [] k
  rw [h, h0]
  exact ⟨by decide, by decide, by decide, by decide⟩

/-! ## The byte `0xFF` (C15) -/

/-- What follows the first byte `0xFF` does not reach the loop. -/
theorem beforeFF_append_FF (a b : List Byte) : beforeFF (a ++ [255] ++ b) = beforeFF a := by
  induction a with
  | nil => rfl
  | cons x rest ih =>
    by_cases hx : x.val = 255
    · simp [beforeFF, hx]
    · simpa [beforeFF, hx] using ih

/-- C15, with signed `char`: the byte `0xFF`, stored in `ch`, equals `EOF`; for
all byte sequences `a` and `b` the output of `generate` on `a`, `0xFF`, `b` is
its output on `a` alone, the prologue, the statements of `a` (up to a byte
`0xFF` of its own) and the epilogue: nothing of `b` is in it. -/
theorem generate_stops_at_0xFF (a b : List Byte) (k j : Nat) :
    toChar true 255 = EOF
      ∧ written (generate true ((a ++ [255] ++ b).length + 1 + k) (opened (a ++ [255] ++ b)))
          = written (generate true (a.length + 1 + j) (opened a))
      ∧ written (generate true ((a ++ [255] ++ b).length + 1 + k) (opened (a ++ [255] ++ b)))
          = some (prologue ++ translation (beforeFF a) ++ epilogue) := by
  refine ⟨by decide, ?_, ?_⟩
  · rw [generate_signed, generate_signed, beforeFF_append_FF]
    rfl
  · rw [generate_signed, beforeFF_append_FF]
    rfl

end BFInterpreter

